import Mathlib

/-!
# Verification of the innovations state-space recursion core (`src/ssfun.cpp`)

This file gives a shallow embedding in Lean 4 of the five routines of the
C++/Armadillo computational core:

* `ssfitter`          - one forward pass of the recursive filter,
* `ssfitterbackcast`  - the backcasting initializer (4 fixed cycles),
* `ssforecaster`      - pure multi-step point forecaster,
* `sserrorer`         - rolling-origin multi-horizon error evaluator,
* `ssoptimizer`       - the cost-function selector,

together with theorems settling the frozen claims about them.

Modelling conventions:

* IEEE doubles are modelled by the type `FV`: either a finite rational
  (`FV.fin q`, exact arithmetic) or the single non-finite marker `FV.bad`
  which collapses `NaN`, `+Inf` and `-Inf`.  For `+`, `-`, `*` any
  non-finite IEEE operand yields a non-finite result, so the absorbing
  `bad` is sound.  Division by zero yields a non-finite IEEE value, hence
  `bad`.  The one place where this abstraction is coarse (`finite / Inf`
  would be `0` in IEEE, while here `fin a / bad = bad`) never matters for
  the theorems below: the only division in the source is
  `persistence / scale-row`, and every theorem that touches it assumes the
  scale matrix is finite.
* Armadillo matrices are column-major; `mat(linear_index_vector)` gathers
  through the flattened storage.  A matrix is embedded as a total function
  `ℕ → ℕ → FV` (row, column) with the row/column counts passed explicitly,
  and `flatGet r m p = m (p % r) (p / r)` is the column-major flattened
  read with `r` rows.
* `uvec` index arithmetic of the source such as `lags - maxlag + i` is
  re-associated to `lags + i - maxlag` in `ℕ`; the source computes the same
  values through `uint64` wrap-around, and every use has `i ≥ maxlag` so
  the end results agree.
* The in-place element assignment
  `matrixxt.elem(find_nonfinite(matrixxt)) = matrixxt.elem(find_nonfinite(matrixxt) - 1)`
  reads, for each non-finite entry at flattened position `p`, the old value
  at position `p - 1` (Armadillo copies the aliased right-hand side).  When
  the entry at flattened position 0 is itself non-finite, `p - 1` underflows
  the unsigned index vector and the read is out of bounds; the embedding
  returns `none` in that case (`fixNF`).  The backward variant in
  `ssfitterbackcast` reads `p + 1`, which is out of bounds when the *last*
  flattened entry is non-finite (`fixNFBack`).
-/

namespace SSpace

/-- A double value: a finite exact rational, or the non-finite marker
(collapsing `NaN` and the infinities). -/
inductive FV where
  | fin (q : ℚ) : FV
  | bad : FV
deriving DecidableEq

namespace FV

/-- `true` iff the value is finite (mirrors `arma::is_finite` of one entry). -/
def isFin : FV → Bool
  | fin _ => true
  | bad => false

/-- Addition; any non-finite operand gives a non-finite result. -/
def add : FV → FV → FV
  | fin a, fin b => fin (a + b)
  | _, _ => bad

/-- Subtraction; any non-finite operand gives a non-finite result. -/
def sub : FV → FV → FV
  | fin a, fin b => fin (a - b)
  | _, _ => bad

/-- Multiplication; any non-finite operand gives a non-finite result
(`Inf * 0 = NaN` in IEEE, so this is exact for the finite/non-finite split). -/
def mul : FV → FV → FV
  | fin a, fin b => fin (a * b)
  | _, _ => bad

/-- Division.  Division by (exact) zero gives a non-finite IEEE value
(`±Inf` or `NaN`), hence `bad`.  See the module comment for the
`fin a / bad` corner. -/
def div : FV → FV → FV
  | fin a, fin b => if b = 0 then bad else fin (a / b)
  | _, _ => bad

/-- Absolute value (used by the `MAE` and default cost branches). -/
def fvabs : FV → FV
  | fin a => fin |a|
  | bad => bad

/-- The rational content of a finite value; junk (`0`) on `bad`.  Only used
under finiteness hypotheses. -/
def toQ : FV → ℚ
  | fin a => a
  | bad => 0

/-- Real interpretation of a value; junk (`0`) on `bad`.  Only used under
finiteness hypotheses. -/
noncomputable def toR : FV → ℝ
  | fin a => (a : ℝ)
  | bad => 0

instance : Add FV := ⟨add⟩
instance : Sub FV := ⟨sub⟩
instance : Mul FV := ⟨mul⟩
instance : Div FV := ⟨div⟩

theorem add_def (a b : FV) : a + b = add a b := rfl
theorem sub_def (a b : FV) : a - b = sub a b := rfl
theorem mul_def (a b : FV) : a * b = mul a b := rfl
theorem div_def (a b : FV) : a / b = div a b := rfl

theorem fin_add_fin (a b : ℚ) : (fin a) + (fin b) = fin (a + b) := rfl
theorem fin_sub_fin (a b : ℚ) : (fin a) - (fin b) = fin (a - b) := rfl
theorem fin_mul_fin (a b : ℚ) : (fin a) * (fin b) = fin (a * b) := rfl

theorem isFin_add {a b : FV} (ha : a.isFin = true) (hb : b.isFin = true) :
    (a + b).isFin = true := by
  cases a <;> cases b <;> simp_all [isFin, add_def, add]

theorem isFin_sub {a b : FV} (ha : a.isFin = true) (hb : b.isFin = true) :
    (a - b).isFin = true := by
  cases a <;> cases b <;> simp_all [isFin, sub_def, sub]

theorem isFin_mul {a b : FV} (ha : a.isFin = true) (hb : b.isFin = true) :
    (a * b).isFin = true := by
  cases a <;> cases b <;> simp_all [isFin, mul_def, mul]

theorem isFin_div {a b : FV} (ha : a.isFin = true) (hb : b.isFin = true)
    (hb0 : b ≠ fin 0) : (a / b).isFin = true := by
  cases a with
  | bad => simp [isFin] at ha
  | fin qa =>
    cases b with
    | bad => simp [isFin] at hb
    | fin qb =>
      have : qb ≠ 0 := by intro h; exact hb0 (by rw [h])
      simp [div_def, div, this, isFin]

end FV

/-- A dense matrix, embedded as a total function `(row, col) ↦ value`;
row/column counts are carried separately. -/
abbrev Mat := ℕ → ℕ → FV

/-- Column-major flattened read of a matrix with `r` rows (the layout of
Armadillo's `mat::operator()(uword)` and `mat(uvec)` gathers). -/
def flatGet (r : ℕ) (m : Mat) (p : ℕ) : FV := m (p % r) (p / r)

theorem flatGet_colrow (r : ℕ) (m : Mat) (k d : ℕ) (hd : d < r) :
    flatGet r m (r * k + d) = m d k := by
  unfold flatGet
  have hmod : (r * k + d) % r = d := by
    rw [Nat.mul_add_mod]
    exact Nat.mod_eq_of_lt hd
  have hdiv : (r * k + d) / r = k := by
    rw [Nat.mul_add_div (Nat.lt_of_le_of_lt (Nat.zero_le d) hd)]
    rw [Nat.div_eq_of_lt hd]
    omega
  rw [hmod, hdiv]

/-- Sum `f 0 + f 1 + ... + f (n-1)` in `FV` (left building, as the
Armadillo accumulations do). -/
def sumFV : ℕ → (ℕ → FV) → FV
  | 0, _ => FV.fin 0
  | n + 1, f => sumFV n f + f n

/-- Inner product of the first `n` entries of two `FV` sequences (the
embedding of `row_vector * column_vector` products of the source). -/
def dotN (n : ℕ) (a b : ℕ → FV) : FV := sumFV n (fun k => a k * b k)

theorem sumFV_congr {n : ℕ} {f g : ℕ → FV} (h : ∀ k < n, f k = g k) :
    sumFV n f = sumFV n g := by
  induction n with
  | zero => rfl
  | succ m ih =>
    unfold sumFV
    rw [ih (fun k hk => h k (Nat.lt_succ_of_lt hk)), h m (Nat.lt_succ_self m)]

theorem dotN_congr {n : ℕ} {a b b' : ℕ → FV} (h : ∀ k < n, b k = b' k) :
    dotN n a b = dotN n a b' :=
  sumFV_congr (fun k hk => by rw [h k hk])

theorem isFin_sumFV {n : ℕ} {f : ℕ → FV} (h : ∀ k < n, (f k).isFin = true) :
    (sumFV n f).isFin = true := by
  induction n with
  | zero => rfl
  | succ m ih =>
    exact FV.isFin_add (ih fun k hk => h k (Nat.lt_succ_of_lt hk))
      (h m (Nat.lt_succ_self m))

theorem isFin_dotN {n : ℕ} {a b : ℕ → FV}
    (ha : ∀ k < n, (a k).isFin = true) (hb : ∀ k < n, (b k).isFin = true) :
    (dotN n a b).isFin = true :=
  isFin_sumFV (fun k hk => FV.isFin_mul (ha k hk) (hb k hk))

/-! ## Non-finite substitution policy

Embedding of
`matrixxt.elem(find_nonfinite(matrixxt)) = matrixxt.elem(find_nonfinite(matrixxt) - 1);`
(forward direction, `ssfitter` line 40 and `ssfitterbackcast` lines 116/123)
and of the `+ 1` variant used by the backward passes
(`ssfitterbackcast` lines 135/142).  `find_nonfinite` scans the whole
`r × c` matrix in column-major order.  If the entry at flattened position 0
is non-finite, `0 - 1` underflows the unsigned index vector and the gather
on the right-hand side reads out of bounds: the embedding returns `none`
for that run.  Otherwise every non-finite in-range entry at flattened
position `p = j * r + i` is replaced by the old value at position `p - 1`. -/
def fixNF (r c : ℕ) (m : Mat) : Option Mat :=
  if 0 < r ∧ 0 < c ∧ (m 0 0).isFin = false then none
  else
    some (fun i j =>
      if i < r ∧ j < c ∧ (m i j).isFin = false then flatGet r m (j * r + i - 1)
      else m i j)

/-- Backward-direction substitution: each non-finite entry is replaced by
the old value one column-major position *later*; out of bounds (hence
`none`) when the last flattened entry `r*c - 1` is non-finite. -/
def fixNFBack (r c : ℕ) (m : Mat) : Option Mat :=
  if 0 < r ∧ 0 < c ∧ (flatGet r m (r * c - 1)).isFin = false then none
  else
    some (fun i j =>
      if i < r ∧ j < c ∧ (m i j).isFin = false then flatGet r m (j * r + i + 1)
      else m i j)

theorem fixNF_of_allFin {r c : ℕ} {m : Mat} (hm : ∀ i j, (m i j).isFin = true) :
    fixNF r c m = some m := by
  unfold fixNF
  rw [if_neg (by simp [hm])]
  congr 1
  funext i j
  rw [if_neg (by simp [hm])]

theorem fixNFBack_of_allFin {r c : ℕ} {m : Mat} (hm : ∀ i j, (m i j).isFin = true) :
    fixNFBack r c m = some m := by
  unfold fixNFBack
  rw [if_neg (by simp [hm, flatGet])]
  congr 1
  funext i j
  rw [if_neg (by simp [hm])]

/-! ## Lag-index bookkeeping

`maxlag = max(lags)` (`ssfun.cpp` line 20/85/186/234); the transformed
forward lag vector is `lags(k) = (maxlag - lags(k)) + rowcount * k`
(lines 22-26, 91-99, 193-196), where `rowcount` is the number of rows of
the flattened state matrix in that routine (`obsall`, `obsallnew`, or
`hor + maxlag`).  The backward lag vector of `ssfitterbackcast` is
`backlags(k) = obsallnew*(k+1) - (maxlag - lags(k))` (lines 90-95: the
subtrahend is the *transformed* `lags(i)` from line 91, not the raw lag). -/
def maxlagOf (L : ℕ) (lag : ℕ → ℕ) : ℕ :=
  (List.range L).foldl (fun a k => max a (lag k)) 0

theorem le_foldl_max (l : List ℕ) (f : ℕ → ℕ) (a : ℕ) :
    a ≤ l.foldl (fun b k => max b (f k)) a := by
  induction l generalizing a with
  | nil => exact Nat.le_refl a
  | cons x xs ih =>
    exact Nat.le_trans (Nat.le_max_left a (f x)) (ih (max a (f x)))

theorem lag_le_maxlagOf {L : ℕ} (lag : ℕ → ℕ) {k : ℕ} (hk : k < L) :
    lag k ≤ maxlagOf L lag := by
  unfold maxlagOf
  induction L with
  | zero => omega
  | succ n ih =>
    rw [List.range_succ, List.foldl_append]
    rcases Nat.lt_or_ge k n with h | h
    · exact Nat.le_trans (ih h) (le_foldl_max _ _ _)
    · have hkn : k = n := by omega
      subst hkn
      simp only [List.foldl_cons, List.foldl_nil]
      exact Nat.le_max_right _ _

/-- The transformed forward lag offsets: component `k` of the `lags`
vector after lines 22-26 (with `rowcount = obsall`; the same shape is used
with `obsallnew` at lines 91-99 and with `hor + maxlag` at lines 193-196). -/
def lagsAdj (lag : ℕ → ℕ) (maxlag rowcount k : ℕ) : ℕ :=
  (maxlag - lag k) + rowcount * k

/-- The backward lag offsets of `ssfitterbackcast` (lines 90-95):
`backlags(k) = obsallnew*(k+1) - lags(k)` where `lags(k)` has already been
replaced by `maxlag - lag k` at line 91. -/
def backlags (lag : ℕ → ℕ) (maxlag obsallnew k : ℕ) : ℕ :=
  obsallnew * (k + 1) - (maxlag - lag k)

/-- The flattened gather index used at step `i` of the forward recursions:
`lagrows = lags - maxlag + i` (lines 35, 111, 120, 202), re-associated in
`ℕ` (see module comment). -/
def lagrowsF (lag : ℕ → ℕ) (maxlag rowcount i k : ℕ) : ℕ :=
  lagsAdj lag maxlag rowcount k + i - maxlag

/-- The flattened gather index of the backward passes:
`lagrows = backlags + i - obsall` (lines 130, 139). -/
def lagrowsB (lag : ℕ → ℕ) (maxlag obsall obsallnew i k : ℕ) : ℕ :=
  backlags lag maxlag obsallnew k + i - obsall

theorem lagrowsF_eq (lag : ℕ → ℕ) (maxlag rowcount i k : ℕ)
    (h1 : lag k ≤ maxlag) (h2 : maxlag ≤ i) :
    lagrowsF lag maxlag rowcount i k = rowcount * k + (i - lag k) := by
  unfold lagrowsF lagsAdj
  omega

theorem flatGet_lagrowsF (m : Mat) (lag : ℕ → ℕ) (maxlag rowcount i k : ℕ)
    (h1 : lag k ≤ maxlag) (h2 : maxlag ≤ i) (h3 : i < rowcount) :
    flatGet rowcount m (lagrowsF lag maxlag rowcount i k) = m (i - lag k) k := by
  rw [lagrowsF_eq lag maxlag rowcount i k h1 h2]
  exact flatGet_colrow rowcount m k (i - lag k) (by omega)

/-! ## The recursive filter `ssfitter` (lines 7-44)

The evolving state of the main loop: the state-history matrix `matrixxt`,
the fitted values `matyfit` and the residuals `materrors` (both initialised
to zeros, lines 30-31). -/
structure LoopSt where
  xt : Mat
  yfit : ℕ → FV
  errs : ℕ → FV

/-- One iteration of the forward filter loop (lines 33-41) at row `i`:
gather the lagged state via the flattened `lagrows`, compute the fit,
residual and new state row, then apply the non-finite substitution.
`rows` is the row count of `xt` (`obsall` in `ssfitter`, `obsallnew`
inside `ssfitterbackcast`), `L` the number of state components
(`lags.n_rows = matrixxt.n_cols`), `nexog` the exogenous column count. -/
def ssStep (F w v : Mat) (yt g : ℕ → FV) (L : ℕ) (lag : ℕ → ℕ)
    (wex xtreg : Mat) (nexog rows maxlag i : ℕ) (s : LoopSt) : Option LoopSt :=
  let t := i - maxlag
  let lagged : ℕ → FV := fun k => flatGet rows s.xt (lagrowsF lag maxlag rows i k)
  let fit := dotN L (w t) lagged + dotN nexog (wex t) (xtreg t)
  let err := yt t - fit
  let xt1 : Mat := fun r c =>
    if r = i ∧ c < L then dotN L (F c) lagged + (g c / v t c) * err
    else s.xt r c
  match fixNF rows L xt1 with
  | none => none
  | some xt2 =>
    some ⟨xt2,
      fun t' => if t' = t then fit else s.yfit t',
      fun t' => if t' = t then err else s.errs t'⟩

/-- The forward filter loop: `n` iterations starting at row `i`
(`for (i = maxlag; i < obsall; i++)`, line 33). -/
def ssLoop (F w v : Mat) (yt g : ℕ → FV) (L : ℕ) (lag : ℕ → ℕ)
    (wex xtreg : Mat) (nexog rows maxlag : ℕ) : ℕ → ℕ → LoopSt → Option LoopSt
  | _, 0, s => some s
  | i, n + 1, s =>
    match ssStep F w v yt g L lag wex xtreg nexog rows maxlag i s with
    | none => none
    | some s' => ssLoop F w v yt g L lag wex xtreg nexog rows maxlag (i + 1) n s'

/-- The returned record of `ssfitter`/`ssfitterbackcast`
(`List::create(...)`, lines 43 and 149). -/
structure SSOut where
  matxt : Mat
  yfit : ℕ → FV
  errors : ℕ → FV
  xtreg : Mat

/-- The recursive filter (`ssfitter`, lines 7-44).  `obsall` is the row
count of the supplied state history; the loop runs `i` from `maxlag` to
`obsall - 1`.  The `xtreg` argument is returned untouched.  (The `obs`
of the source is only the length of the output vectors and plays no role
in the functional embedding.) -/
def ssfitter (xt0 F w v : Mat) (yt g : ℕ → FV) (L : ℕ) (lag : ℕ → ℕ)
    (wex xtreg : Mat) (nexog obsall : ℕ) : Option SSOut :=
  let maxlag := maxlagOf L lag
  (ssLoop F w v yt g L lag wex xtreg nexog obsall maxlag maxlag
      (obsall - maxlag) ⟨xt0, fun _ => FV.fin 0, fun _ => FV.fin 0⟩).map
    fun s => ⟨s.xt, s.yfit, s.errs, xtreg⟩

/-! ## The multi-step forecaster `ssforecaster` (lines 178-208) -/

/-- One iteration of the forecaster loop (lines 201-205) at row `i` of the
`hh × L` buffer `matrixxtnew`: write row `i` as `F * lagged` (line 203,
no residual feedback, no substitution), then compute the forecast from a
*fresh* gather (line 204 re-reads `matrixxtnew(lagrows)` after the write;
the gathered rows are `i - lag k < i`, so for positive lags the two
gathers agree, but the embedding keeps the source's order). -/
def fcStep (F w : Mat) (L : ℕ) (lag : ℕ → ℕ) (wex xtreg : Mat)
    (nexog hh maxlag i : ℕ) (s : Mat × (ℕ → FV)) : Mat × (ℕ → FV) :=
  let t := i - maxlag
  let laggedA : ℕ → FV := fun k => flatGet hh s.1 (lagrowsF lag maxlag hh i k)
  let xt1 : Mat := fun r c =>
    if r = i ∧ c < L then dotN L (F c) laggedA else s.1 r c
  let laggedB : ℕ → FV := fun k => flatGet hh xt1 (lagrowsF lag maxlag hh i k)
  (xt1, fun t' =>
    if t' = t then dotN L (w t) laggedB + dotN nexog (wex t) (xtreg t)
    else s.2 t')

/-- The forecaster loop: `n` iterations starting at row `i`. -/
def fcLoop (F w : Mat) (L : ℕ) (lag : ℕ → ℕ) (wex xtreg : Mat)
    (nexog hh maxlag : ℕ) : ℕ → ℕ → Mat × (ℕ → FV) → Mat × (ℕ → FV)
  | _, 0, s => s
  | i, n + 1, s =>
    fcLoop F w L lag wex xtreg nexog hh maxlag (i + 1) n
      (fcStep F w L lag wex xtreg nexog hh maxlag i s)

/-- The point forecaster (`ssforecaster`, lines 179-208): seed the first
`maxlag` rows of a zero `(hor + maxlag) × L` buffer from the supplied
state history (line 198), then propagate forward `hor` steps with the
transition matrix alone. -/
def ssforecaster (xt F w : Mat) (hor : ℕ) (L : ℕ) (lag : ℕ → ℕ)
    (wex xtreg : Mat) (nexog : ℕ) : ℕ → FV :=
  let maxlag := maxlagOf L lag
  let hh := hor + maxlag
  let xtnew : Mat := fun r c => if r < maxlag then xt r c else FV.fin 0
  (fcLoop F w L lag wex xtreg nexog hh maxlag maxlag hor
    (xtnew, fun _ => FV.fin 0)).2

/-! ## The rolling-origin error evaluator `sserrorer` (lines 231-248) -/

/-- The rolling-origin error matrix (`sserrorer`).  The `obs × hor` result
is filled with the missing sentinel (`NA_REAL`, a non-finite value, hence
`FV.bad`); for each origin `i` from `maxlag` to `obs + maxlag - 1`, with
`t = i - maxlag` and `hh = min(hor, obs + maxlag - i) = min hor (obs - t)`,
row `t` receives in columns `0 .. hh-1` the values
`matyt.rows(t, t+hh-1) - ssforecaster(matrixxt.rows(t, i-1), ..., hh, ...)`
(lines 240-245).  Each row is written exactly once, so the loop is
rendered as a direct per-entry function. -/
def sserrorer (xt F w : Mat) (yt : ℕ → FV) (hor : ℕ) (L : ℕ)
    (lag : ℕ → ℕ) (wex xtreg : Mat) (nexog obs : ℕ) : Mat :=
  fun t j =>
    if t < obs ∧ j < min hor (obs - t) then
      yt (t + j) -
        ssforecaster (fun r c => xt (t + r) c) F (fun r c => w (t + r) c)
          (min hor (obs - t)) L lag
          (fun r c => wex (t + r) c) (fun r c => xtreg (t + r) c) nexog j
    else FV.bad

/-! ## The backcasting initializer `ssfitterbackcast` (lines 72-150) -/

/-- Trailing forward propagation (lines 119-124): for `i` in
`[obsall, obsallnew)`, write row `i` as `F * lagged` (no residual
feedback), with the forward non-finite substitution. -/
def bcTrailStep (F : Mat) (L : ℕ) (lag : ℕ → ℕ) (obsallnew maxlag i : ℕ)
    (xt : Mat) : Option Mat :=
  let lagged : ℕ → FV := fun k => flatGet obsallnew xt (lagrowsF lag maxlag obsallnew i k)
  fixNF obsallnew L (fun r c =>
    if r = i ∧ c < L then dotN L (F c) lagged else xt r c)

/-- Loop for `bcTrailStep`: `n` ascending iterations from row `i`. -/
def bcTrailLoop (F : Mat) (L : ℕ) (lag : ℕ → ℕ) (obsallnew maxlag : ℕ) :
    ℕ → ℕ → Mat → Option Mat
  | _, 0, xt => some xt
  | i, n + 1, xt =>
    match bcTrailStep F L lag obsallnew maxlag i xt with
    | none => none
    | some xt' => bcTrailLoop F L lag obsallnew maxlag (i + 1) n xt'

/-- One iteration of the backward filter pass (lines 129-136) at row `i`:
identical to the forward filter step except that the lagged state is
gathered through `backlags + i - obsall` and the non-finite substitution
reads the *next* flattened position. -/
def bcBackStep (F w v : Mat) (yt g : ℕ → FV) (L : ℕ) (lag : ℕ → ℕ)
    (wex xtreg : Mat) (nexog obsall obsallnew maxlag i : ℕ) (s : LoopSt) :
    Option LoopSt :=
  let t := i - maxlag
  let lagged : ℕ → FV := fun k =>
    flatGet obsallnew s.xt (lagrowsB lag maxlag obsall obsallnew i k)
  let fit := dotN L (w t) lagged + dotN nexog (wex t) (xtreg t)
  let err := yt t - fit
  let xt1 : Mat := fun r c =>
    if r = i ∧ c < L then dotN L (F c) lagged + (g c / v t c) * err
    else s.xt r c
  match fixNFBack obsallnew L xt1 with
  | none => none
  | some xt2 =>
    some ⟨xt2,
      fun t' => if t' = t then fit else s.yfit t',
      fun t' => if t' = t then err else s.errs t'⟩

/-- The backward filter loop: `n` *descending* iterations starting at
row `i` (`for (i = obsall-1; i >= maxlag; i--)`, line 129). -/
def bcBackLoop (F w v : Mat) (yt g : ℕ → FV) (L : ℕ) (lag : ℕ → ℕ)
    (wex xtreg : Mat) (nexog obsall obsallnew maxlag : ℕ) :
    ℕ → ℕ → LoopSt → Option LoopSt
  | _, 0, s => some s
  | i, n + 1, s =>
    match bcBackStep F w v yt g L lag wex xtreg nexog obsall obsallnew maxlag i s with
    | none => none
    | some s' =>
      bcBackLoop F w v yt g L lag wex xtreg nexog obsall obsallnew maxlag (i - 1) n s'

/-- Backward trailing propagation (lines 138-143): for `i` from
`maxlag - 1` down to `0`, write row `i` as `F * lagged` through the
backward gather, with the backward substitution. -/
def bcBackTrailStep (F : Mat) (L : ℕ) (lag : ℕ → ℕ)
    (obsall obsallnew maxlag i : ℕ) (xt : Mat) : Option Mat :=
  let lagged : ℕ → FV := fun k =>
    flatGet obsallnew xt (lagrowsB lag maxlag obsall obsallnew i k)
  fixNFBack obsallnew L (fun r c =>
    if r = i ∧ c < L then dotN L (F c) lagged else xt r c)

/-- Loop for `bcBackTrailStep`: `n` descending iterations from row `i`. -/
def bcBackTrailLoop (F : Mat) (L : ℕ) (lag : ℕ → ℕ)
    (obsall obsallnew maxlag : ℕ) : ℕ → ℕ → Mat → Option Mat
  | _, 0, xt => some xt
  | i, n + 1, xt =>
    match bcBackTrailStep F L lag obsall obsallnew maxlag i xt with
    | none => none
    | some xt' => bcBackTrailLoop F L lag obsall obsallnew maxlag (i - 1) n xt'

/-- One backcast cycle (the body of `for (j = 0; j < 4; j++)`, lines
107-145): forward filter over `[maxlag, obsall)`, trailing forward
propagation over `[obsall, obsallnew)`, and - when `doBack` (`j < 3`,
line 127) - the backward filter pass over `[obsall-1 .. maxlag]` followed
by the backward trailing propagation over `[maxlag-1 .. 0]`. -/
def bcCycle (F w v : Mat) (yt g : ℕ → FV) (L : ℕ) (lag : ℕ → ℕ)
    (wex xtreg : Mat) (nexog obsall obsallnew maxlag : ℕ) (doBack : Bool)
    (s : LoopSt) : Option LoopSt :=
  match ssLoop F w v yt g L lag wex xtreg nexog obsallnew maxlag maxlag
      (obsall - maxlag) s with
  | none => none
  | some s1 =>
    match bcTrailLoop F L lag obsallnew maxlag obsall (obsallnew - obsall) s1.xt with
    | none => none
    | some xt2 =>
      let s2 : LoopSt := ⟨xt2, s1.yfit, s1.errs⟩
      if doBack then
        match bcBackLoop F w v yt g L lag wex xtreg nexog obsall obsallnew maxlag
            (obsall - 1) (obsall - maxlag) s2 with
        | none => none
        | some s3 =>
          match bcBackTrailLoop F L lag obsall obsallnew maxlag (maxlag - 1)
              maxlag s3.xt with
          | none => none
          | some xt4 => some ⟨xt4, s3.yfit, s3.errs⟩
      else some s2

/-- The cycle loop: `n` cycles starting at cycle index `j`, with the
backward passes enabled exactly when `j < 3`. -/
def bcCycles (F w v : Mat) (yt g : ℕ → FV) (L : ℕ) (lag : ℕ → ℕ)
    (wex xtreg : Mat) (nexog obsall obsallnew maxlag : ℕ) :
    ℕ → ℕ → LoopSt → Option LoopSt
  | _, 0, s => some s
  | j, n + 1, s =>
    match bcCycle F w v yt g L lag wex xtreg nexog obsall obsallnew maxlag
        (decide (j < 3)) s with
    | none => none
    | some s' =>
      bcCycles F w v yt g L lag wex xtreg nexog obsall obsallnew maxlag (j + 1) n s'

/-- The backcasting initializer (`ssfitterbackcast`, lines 72-150).

The state history is first extended to `obsallnew = obsall + maxlag` rows
by `matrixxt.resize(obsallnew, n_cols)` (line 88), which *preserves* the
existing rows and zero-fills the new ones.  After the 4 cycles the source
calls `matrixxt.set_size(obsall, n_cols)` (line 147).  Armadillo's
`set_size` changes the dimensions *without preserving the elements*: the
element count shrinks, so the memory is released and re-acquired and the
returned matrix contents are indeterminate.  The embedding models this
uninitialised memory by the explicit parameter `junk`: the returned
`matxt` is `junk`, whatever the cycles computed. -/
def ssfitterbackcast (xt0 F w v : Mat) (yt g : ℕ → FV) (L : ℕ)
    (lag : ℕ → ℕ) (wex xtreg : Mat) (nexog obsall : ℕ) (junk : Mat) :
    Option SSOut :=
  let maxlag := maxlagOf L lag
  let obsallnew := obsall + maxlag
  let xtR : Mat := fun r c => if r < obsall then xt0 r c else FV.fin 0
  (bcCycles F w v yt g L lag wex xtreg nexog obsall obsallnew maxlag 0 4
      ⟨xtR, fun _ => FV.fin 0, fun _ => FV.fin 0⟩).map
    fun s => ⟨junk, s.yfit, s.errs, xtreg⟩

/-! ## The cost-function selector `ssoptimizer` (lines 274-341) -/

/-- `as_scalar(mean(pow(E.submat(0, j, n-1, j), 2)))`: the mean of the
squares of the first `n` entries of column `j` of `E`, in `FV` arithmetic. -/
def meanSqCol (E : Mat) (n j : ℕ) : FV :=
  sumFV n (fun t => E t j * E t j) / FV.fin (n : ℚ)

/-- `as_scalar(mean(pow(e, 2)))` over the first `obs` entries of a vector. -/
def meanSqVec (e : ℕ → FV) (obs : ℕ) : FV :=
  sumFV obs (fun t => e t * e t) / FV.fin (obs : ℚ)

/-- `as_scalar(mean(abs(e)))` over the first `obs` entries of a vector. -/
def meanAbsVec (e : ℕ → FV) (obs : ℕ) : FV :=
  sumFV obs (fun t => (e t).fvabs) / FV.fin (obs : ℚ)

/-- The cost-function computation applied to the output of the fitting
stage (the `if/else if` chain of lines 301-338).  The result is a real
number because the `TLV` branch takes logarithms and the default branch
square roots; `FV.toR` interprets the exact rational intermediate values
(the theorems below only use it under finiteness hypotheses).  The `GV`
branch (lines 301-310) computes a log-determinant through an eigenvalue
decomposition with a `try/catch` fallback; no claim concerns it and it is
not embedded: the embedding returns `none` for `CFtype = "GV"`. -/
noncomputable def ssCost (F w : Mat) (yt : ℕ → FV) (hor : ℕ) (L : ℕ)
    (lag : ℕ → ℕ) (CFtype : String) (wex xtreg : Mat) (nexog obs : ℕ)
    (out : SSOut) : Option ℝ :=
  if CFtype = "GV" then none
  else if CFtype = "TLV" then
    let E := sserrorer out.matxt F w yt hor L lag wex xtreg nexog obs
    some ((List.range hor).foldl
      (fun a i => a + Real.log (meanSqCol E (obs - i) i).toR) 0)
  else if CFtype = "TV" then
    let E := sserrorer out.matxt F w yt hor L lag wex xtreg nexog obs
    some ((List.range hor).foldl
      (fun a i => a + (meanSqCol E (obs - i) i).toR) 0)
  else if CFtype = "hsteps" then
    let E := sserrorer out.matxt F w yt hor L lag wex xtreg nexog obs
    some (meanSqCol E (obs - hor + 1) (hor - 1)).toR
  else if CFtype = "MSE" then some (meanSqVec out.errors obs).toR
  else if CFtype = "MAE" then some (meanAbsVec out.errors obs).toR
  else
    some (((List.range obs).foldl
      (fun a t => a + Real.sqrt (out.errors t).fvabs.toR) 0) / (obs : ℝ))

/-- The cost-function selector (`ssoptimizer`, lines 274-341): run
`ssfitterbackcast` or `ssfitter` according to `backcasting` (lines
286-291), take the updated state history, residuals and exogenous
coefficients from the fit (lines 293-297), and reduce them to a scalar
loss via `ssCost`.  `normalize` is only consumed by the non-embedded `GV`
branch and `junk` only by the backcasting path (see `ssfitterbackcast`). -/
noncomputable def ssoptimizer (xt0 F w v : Mat) (yt g : ℕ → FV)
    (hor : ℕ) (L : ℕ) (lag : ℕ → ℕ) (CFtype : String) (normalize : ℚ)
    (backcasting : Bool) (wex xtreg : Mat) (nexog obsall obs : ℕ)
    (junk : Mat) : Option ℝ :=
  match
    (if backcasting then
      ssfitterbackcast xt0 F w v yt g L lag wex xtreg nexog obsall junk
    else ssfitter xt0 F w v yt g L lag wex xtreg nexog obsall) with
  | none => none
  | some out => ssCost F w yt hor L lag CFtype wex out.xtreg nexog obs out

/-! ## Finiteness and characterization of the forward filter loop -/

/-- Every entry of a matrix is finite (a "well-formed numeric input"). -/
def AllFinM (m : Mat) : Prop := ∀ r c, (m r c).isFin = true

/-- Every entry of a vector is finite. -/
def AllFinV (f : ℕ → FV) : Prop := ∀ t, (f t).isFin = true

/-- Finite, well-formed inputs for the filter: finite transition,
measurement, scale, observed, persistence and exogenous data, with every
scale entry non-zero (so the persistence division is exact). -/
def FinInputs (F w v : Mat) (yt g : ℕ → FV) (wex xtreg : Mat) : Prop :=
  AllFinM F ∧ AllFinM w ∧
  (∀ t c, (v t c).isFin = true ∧ v t c ≠ FV.fin 0) ∧
  AllFinV yt ∧ AllFinV g ∧ AllFinM wex ∧ AllFinM xtreg

/-- The lag set is positive: every component lag is at least 1. -/
def LagsPos (L : ℕ) (lag : ℕ → ℕ) : Prop := ∀ k < L, 1 ≤ lag k

theorem ssStep_spec {F w v : Mat} {yt g : ℕ → FV} {L : ℕ} {lag : ℕ → ℕ}
    {wex xtreg : Mat} (nexog rows maxlag : ℕ)
    (hin : FinInputs F w v yt g wex xtreg)
    (hlag : ∀ k < L, lag k ≤ maxlag)
    {i : ℕ} {s : LoopSt} (hAll : AllFinM s.xt) (hi : maxlag ≤ i) (hir : i < rows) :
    ∃ s', ssStep F w v yt g L lag wex xtreg nexog rows maxlag i s = some s' ∧
      AllFinM s'.xt ∧
      (∀ r c, s'.xt r c =
        if r = i ∧ c < L then
          dotN L (F c) (fun k => s.xt (i - lag k) k) +
            (g c / v (i - maxlag) c) *
              (yt (i - maxlag) -
                (dotN L (w (i - maxlag)) (fun k => s.xt (i - lag k) k) +
                  dotN nexog (wex (i - maxlag)) (xtreg (i - maxlag))))
        else s.xt r c) ∧
      (∀ t', s'.yfit t' =
        if t' = i - maxlag then
          dotN L (w (i - maxlag)) (fun k => s.xt (i - lag k) k) +
            dotN nexog (wex (i - maxlag)) (xtreg (i - maxlag))
        else s.yfit t') ∧
      (∀ t', s'.errs t' =
        if t' = i - maxlag then
          yt (i - maxlag) -
            (dotN L (w (i - maxlag)) (fun k => s.xt (i - lag k) k) +
              dotN nexog (wex (i - maxlag)) (xtreg (i - maxlag)))
        else s.errs t') := by
  obtain ⟨hF, hw, hv, hyt, hg, hwex, hxtreg⟩ := hin
  have hgath : ∀ k < L,
      flatGet rows s.xt (lagrowsF lag maxlag rows i k) = s.xt (i - lag k) k :=
    fun k hk => flatGet_lagrowsF s.xt lag maxlag rows i k (hlag k hk) hi hir
  set t := i - maxlag with ht
  set fit := dotN L (w t) (fun k => s.xt (i - lag k) k) +
      dotN nexog (wex t) (xtreg t) with hfit
  set err := yt t - fit with herr
  have hfitFin : fit.isFin = true :=
    FV.isFin_add
      (isFin_dotN (fun k _ => hw t k) (fun k _ => hAll (i - lag k) k))
      (isFin_dotN (fun k _ => hwex t k) (fun k _ => hxtreg t k))
  have herrFin : err.isFin = true := FV.isFin_sub (hyt t) hfitFin
  set xt1 : Mat := fun r c =>
    (if r = i ∧ c < L then
      dotN L (F c) (fun k => s.xt (i - lag k) k) + (g c / v t c) * err
    else s.xt r c) with hxt1
  have hxt1Fin : AllFinM xt1 := by
    intro r c
    simp only [hxt1]
    by_cases hrc : r = i ∧ c < L
    · rw [if_pos hrc]
      exact FV.isFin_add
        (isFin_dotN (fun k _ => hF c k) (fun k _ => hAll (i - lag k) k))
        (FV.isFin_mul (FV.isFin_div (hg c) (hv t c).1 (hv t c).2) herrFin)
    · rw [if_neg hrc]; exact hAll r c
  refine ⟨⟨xt1,
      fun t' => if t' = t then fit else s.yfit t',
      fun t' => if t' = t then err else s.errs t'⟩, ?_, hxt1Fin,
      fun r c => rfl, fun t' => rfl, fun t' => rfl⟩
  show ssStep F w v yt g L lag wex xtreg nexog rows maxlag i s = _
  unfold ssStep
  have hfit' : dotN L (w (i - maxlag))
        (fun k => flatGet rows s.xt (lagrowsF lag maxlag rows i k)) +
      dotN nexog (wex (i - maxlag)) (xtreg (i - maxlag)) = fit := by
    rw [hfit, ht, dotN_congr hgath]
  simp only [← ht, hfit', ← herr]
  have hxt1eq : (fun r c =>
      if r = i ∧ c < L then
        dotN L (F c) (fun k => flatGet rows s.xt (lagrowsF lag maxlag rows i k)) +
          (g c / v t c) * err
      else s.xt r c) = xt1 := by
    funext r c
    simp only [hxt1]
    by_cases hrc : r = i ∧ c < L
    · rw [if_pos hrc, if_pos hrc, dotN_congr hgath]
    · rw [if_neg hrc, if_neg hrc]
  rw [hxt1eq, fixNF_of_allFin hxt1Fin]

/-- Invariant/characterization of the forward filter loop: with finite
well-formed inputs and a finite state history, the loop from row `i` for
`n` steps succeeds, keeps the state finite, writes only rows
`[i, i + n)` of the state (resp. entries `[i - maxlag, i + n - maxlag)` of
the fitted/residual vectors), and on the written range the final values
satisfy the one-step recurrence of the source, stated against the *final*
state history (legitimate because each row is written exactly once and,
with everything finite, the substitution pass never rewrites it). -/
theorem ssLoop_spec {F w v : Mat} {yt g : ℕ → FV} {L : ℕ} {lag : ℕ → ℕ}
    {wex xtreg : Mat} (nexog rows maxlag : ℕ)
    (hin : FinInputs F w v yt g wex xtreg)
    (hlag : ∀ k < L, lag k ≤ maxlag) (hlag1 : LagsPos L lag) :
    ∀ (n i : ℕ) (s : LoopSt), maxlag ≤ i → i + n ≤ rows → AllFinM s.xt →
    ∃ s', ssLoop F w v yt g L lag wex xtreg nexog rows maxlag i n s = some s' ∧
      AllFinM s'.xt ∧
      (∀ r c, r < i ∨ i + n ≤ r → s'.xt r c = s.xt r c) ∧
      (∀ t', t' + maxlag < i ∨ i + n ≤ t' + maxlag →
        s'.yfit t' = s.yfit t' ∧ s'.errs t' = s.errs t') ∧
      (∀ m, i ≤ m → m < i + n →
        (s'.yfit (m - maxlag) =
          dotN L (w (m - maxlag)) (fun k => s'.xt (m - lag k) k) +
            dotN nexog (wex (m - maxlag)) (xtreg (m - maxlag))) ∧
        (s'.errs (m - maxlag) = yt (m - maxlag) - s'.yfit (m - maxlag)) ∧
        (∀ c < L, s'.xt m c =
          dotN L (F c) (fun k => s'.xt (m - lag k) k) +
            (g c / v (m - maxlag) c) * s'.errs (m - maxlag))) := by
  intro n
  induction n with
  | zero =>
    intro i s hi hins hAll
    exact ⟨s, rfl, hAll, fun r c _ => rfl, fun t' _ => ⟨rfl, rfl⟩,
      fun m him hmn => absurd (Nat.lt_of_le_of_lt him hmn) (by omega)⟩
  | succ n ih =>
    intro i s hi hins hAll
    obtain ⟨s1, hstep, hfin1, hxt1, hyf1, herr1⟩ :=
      ssStep_spec nexog rows maxlag hin hlag hAll hi (show i < rows by omega)
    obtain ⟨s', hloop, hfin', hstabxt, hstabvec, hrec⟩ :=
      ih (i + 1) s1 (by omega) (by omega) hfin1
    have hrowIStable : ∀ c, s'.xt i c = s1.xt i c :=
      fun c => hstabxt i c (Or.inl (by omega))
    have hgathI : ∀ k < L, s'.xt (i - lag k) k = s.xt (i - lag k) k := by
      intro k hk
      have h1 : 1 ≤ lag k := hlag1 k hk
      have h2 : lag k ≤ maxlag := hlag k hk
      rw [hstabxt _ _ (Or.inl (by omega)), hxt1]
      rw [if_neg (by intro hh; omega)]
    refine ⟨s', ?_, hfin', ?_, ?_, ?_⟩
    · unfold ssLoop
      rw [hstep]
      exact hloop
    · intro r c hr
      rw [hstabxt r c (by omega), hxt1]
      rw [if_neg (by intro hh; omega)]
    · intro t' ht'
      obtain ⟨h1, h2⟩ := hstabvec t' (by omega)
      rw [h1, h2, hyf1, herr1, if_neg (by omega), if_neg (by omega)]
      exact ⟨rfl, rfl⟩
    · intro m him hmn
      rcases Nat.eq_or_lt_of_le him with rfl | hmi
      · have hyfI : s'.yfit (i - maxlag) =
            dotN L (w (i - maxlag)) (fun k => s'.xt (i - lag k) k) +
              dotN nexog (wex (i - maxlag)) (xtreg (i - maxlag)) := by
          have hstv := (hstabvec (i - maxlag) (Or.inl (by omega))).1
          rw [hstv, hyf1 (i - maxlag), if_pos rfl]
          congr 1
          exact (dotN_congr (fun k hk => (hgathI k hk).symm))
        have herrI : s'.errs (i - maxlag) = yt (i - maxlag) - s'.yfit (i - maxlag) := by
          have hstv := (hstabvec (i - maxlag) (Or.inl (by omega))).2
          rw [hstv, herr1 (i - maxlag), if_pos rfl, hyfI]
          congr 2
          exact dotN_congr (fun k hk => (hgathI k hk).symm)
        refine ⟨hyfI, herrI, ?_⟩
        intro c hc
        rw [hrowIStable c, hxt1 i c, if_pos ⟨rfl, hc⟩]
        rw [dotN_congr (fun k hk => (hgathI k hk).symm)]
        congr 1
        rw [herrI, hyfI]
        congr 2
        rw [dotN_congr (fun k hk => (hgathI k hk).symm)]
      · exact hrec m hmi (by omega)

/-- Packaged specification of `ssfitter` on finite inputs: the call
succeeds, the pre-sample rows are untouched, and on every processed row
the outputs satisfy the filter equations of lines 37-39. -/
theorem ssfitter_spec (xt0 F w v : Mat) (yt g : ℕ → FV) (L : ℕ)
    (lag : ℕ → ℕ) (wex xtreg : Mat) (nexog obsall : ℕ)
    (hin : FinInputs F w v yt g wex xtreg) (hlag1 : LagsPos L lag)
    (hAll : AllFinM xt0) (hmo : maxlagOf L lag ≤ obsall) :
    ∃ out, ssfitter xt0 F w v yt g L lag wex xtreg nexog obsall = some out ∧
      AllFinM out.matxt ∧ out.xtreg = xtreg ∧
      (∀ r c, r < maxlagOf L lag → out.matxt r c = xt0 r c) ∧
      (∀ i, maxlagOf L lag ≤ i → i < obsall →
        (out.yfit (i - maxlagOf L lag) =
          dotN L (w (i - maxlagOf L lag)) (fun k => out.matxt (i - lag k) k) +
            dotN nexog (wex (i - maxlagOf L lag)) (xtreg (i - maxlagOf L lag))) ∧
        (out.errors (i - maxlagOf L lag) =
          yt (i - maxlagOf L lag) - out.yfit (i - maxlagOf L lag)) ∧
        (∀ c < L, out.matxt i c =
          dotN L (F c) (fun k => out.matxt (i - lag k) k) +
            (g c / v (i - maxlagOf L lag) c) * out.errors (i - maxlagOf L lag))) := by
  obtain ⟨s', hloop, hfin, hstabxt, hstabvec, hrec⟩ :=
    ssLoop_spec nexog obsall (maxlagOf L lag) hin
      (fun k hk => lag_le_maxlagOf lag hk) hlag1
      (obsall - maxlagOf L lag) (maxlagOf L lag)
      ⟨xt0, fun _ => FV.fin 0, fun _ => FV.fin 0⟩
      (Nat.le_refl _) (by omega) hAll
  refine ⟨⟨s'.xt, s'.yfit, s'.errs, xtreg⟩, ?_, hfin, rfl, ?_, ?_⟩
  · show (ssLoop F w v yt g L lag wex xtreg nexog obsall (maxlagOf L lag)
        (maxlagOf L lag) (obsall - maxlagOf L lag)
        ⟨xt0, fun _ => FV.fin 0, fun _ => FV.fin 0⟩).map
        (fun s => SSOut.mk s.xt s.yfit s.errs xtreg) = _
    rw [hloop]
    rfl
  · intro r c hr
    exact hstabxt r c (Or.inl hr)
  · intro i hi hio
    obtain ⟨h1, h2, h3⟩ := hrec i hi (by omega)
    exact ⟨h1, h2, h3⟩

/-! ## Concrete single-component scenario

The scenario of §8 of the spec: one state component, `lag = [1]`,
`transition = measurement = scale = [1]`, `persistence = [0.3]`,
observed series `[1, 2, 3, 4, 5]`, zero initial state, no exogenous
variables (`nexog = 0`), so `obs = 5`, `maxlag = 1`, `obsall = 6`. -/
def mOnes : Mat := fun _ _ => FV.fin 1

/-- All-zero matrix (initial state / unused exogenous blocks). -/
def mZeros : Mat := fun _ _ => FV.fin 0

/-- The observed series `1, 2, 3, 4, 5, ...`. -/
def scenYt : ℕ → FV := fun t => FV.fin ((t : ℚ) + 1)

/-- The persistence vector `[0.3]`. -/
def scenG : ℕ → FV := fun _ => FV.fin (3 / 10)

/-- The lag set `[1]`. -/
def scenLag : ℕ → ℕ := fun _ => 1

theorem scen_maxlag : maxlagOf 1 scenLag = 1 := by
  norm_num [maxlagOf, scenLag, List.range_succ]

theorem scen_FinInputs : FinInputs mOnes mOnes mOnes scenYt scenG mZeros mZeros := by
  refine ⟨fun _ _ => rfl, fun _ _ => rfl, fun _ _ => ⟨rfl, ?_⟩,
    fun _ => rfl, fun _ => rfl, fun _ _ => rfl, fun _ _ => rfl⟩
  intro h
  rw [mOnes, FV.fin.injEq] at h
  norm_num at h

theorem scen_LagsPos : LagsPos 1 scenLag := fun _ _ => Nat.le_refl 1

/-- C1: for every call to the recursive filter and every row `i` from
`maxlag` to the end of the state history minus 1, with `t = i - maxlag`:
the fitted value is the inner product of measurement row `t` with the
lagged state gathered at rows `i - lag k`, plus the exogenous contribution
`wex[t] · xtreg[t]`; the residual is `observed[t]` minus that fitted
value; and state row `i` is `transition · laggedState` plus the
persistence vector divided element-wise by scale row `t`, scaled by the
residual.  (Stated for finite well-formed inputs, under which the
non-finite substitution of line 40 is the identity.) -/
theorem ssfitter_step_equations (xt0 F w v : Mat) (yt g : ℕ → FV) (L : ℕ)
    (lag : ℕ → ℕ) (wex xtreg : Mat) (nexog obsall : ℕ)
    (hin : FinInputs F w v yt g wex xtreg) (hlag1 : LagsPos L lag)
    (hAll : AllFinM xt0) (hmo : maxlagOf L lag ≤ obsall) :
    ∃ out, ssfitter xt0 F w v yt g L lag wex xtreg nexog obsall = some out ∧
      ∀ i, maxlagOf L lag ≤ i → i < obsall →
        (out.yfit (i - maxlagOf L lag) =
          dotN L (w (i - maxlagOf L lag)) (fun k => out.matxt (i - lag k) k) +
            dotN nexog (wex (i - maxlagOf L lag)) (xtreg (i - maxlagOf L lag))) ∧
        (out.errors (i - maxlagOf L lag) =
          yt (i - maxlagOf L lag) - out.yfit (i - maxlagOf L lag)) ∧
        (∀ c < L, out.matxt i c =
          dotN L (F c) (fun k => out.matxt (i - lag k) k) +
            (g c / v (i - maxlagOf L lag) c) * out.errors (i - maxlagOf L lag)) := by
  obtain ⟨out, hout, _, _, _, hrec⟩ :=
    ssfitter_spec xt0 F w v yt g L lag wex xtreg nexog obsall hin hlag1 hAll hmo
  exact ⟨out, hout, hrec⟩

/-- Witness for C1: the filter equations instantiated on the concrete
single-component scenario. -/
theorem ssfitter_step_equations_instance :
    ∃ out, ssfitter mZeros mOnes mOnes mOnes scenYt scenG 1 scenLag
        mZeros mZeros 0 6 = some out ∧
      ∀ i, maxlagOf 1 scenLag ≤ i → i < 6 →
        (out.yfit (i - maxlagOf 1 scenLag) =
          dotN 1 (mOnes (i - maxlagOf 1 scenLag)) (fun k => out.matxt (i - scenLag k) k) +
            dotN 0 (mZeros (i - maxlagOf 1 scenLag)) (mZeros (i - maxlagOf 1 scenLag))) ∧
        (out.errors (i - maxlagOf 1 scenLag) =
          scenYt (i - maxlagOf 1 scenLag) - out.yfit (i - maxlagOf 1 scenLag)) ∧
        (∀ c < 1, out.matxt i c =
          dotN 1 (mOnes c) (fun k => out.matxt (i - scenLag k) k) +
            (scenG c / mOnes (i - maxlagOf 1 scenLag) c) *
              out.errors (i - maxlagOf 1 scenLag)) :=
  ssfitter_step_equations mZeros mOnes mOnes mOnes scenYt scenG 1 scenLag
    mZeros mZeros 0 6 scen_FinInputs scen_LagsPos (fun _ _ => rfl)
    (by rw [scen_maxlag]; omega)

/-- Counterexample to C2: on the stated scenario the filter's second
fitted value is `0.3` (the state after one update `0 + 0.3·1`), not the
claimed `1`: the claimed output `fitted = [0, 1, 1.7, 2.59, 3.613]` is
false. -/
theorem ssfitter_scen_fitted_ne_claimed :
    (ssfitter mZeros mOnes mOnes mOnes scenYt scenG 1 scenLag mZeros mZeros
        0 6).map (fun o => o.yfit 1) = some (FV.fin (3 / 10)) ∧
      FV.fin (3 / 10) ≠ FV.fin 1 := by
  constructor
  · norm_num [ssfitter, ssLoop, ssStep, fixNF, maxlagOf, scenLag, List.range_succ,
      mZeros, mOnes, scenYt, scenG, dotN, sumFV, flatGet, lagrowsF, lagsAdj,
      FV.add_def, FV.sub_def, FV.mul_def, FV.div_def, FV.add, FV.sub, FV.mul,
      FV.div, FV.isFin]
  · intro h
    rw [FV.fin.injEq] at h
    norm_num at h

/-- C2 as amended: on the scenario (`lag = [1]`, `transition =
measurement = scale = [1]`, `persistence = [0.3]`, observed `[1,2,3,4,5]`,
zero initial state, no exogenous part) the filter returns exactly
`fitted = [0, 0.3, 0.81, 1.467, 2.2269]` and
`residuals = [1, 1.7, 2.19, 2.533, 2.7731]`
(the recurrence `state_{t+1} = state_t + 0.3·residual_t`,
`fitted_t = state_t`, `residual_t = observed_t - fitted_t`). -/
theorem ssfitter_scen_values :
    (ssfitter mZeros mOnes mOnes mOnes scenYt scenG 1 scenLag mZeros mZeros
        0 6).map (fun o =>
      (o.yfit 0, o.yfit 1, o.yfit 2, o.yfit 3, o.yfit 4,
       o.errors 0, o.errors 1, o.errors 2, o.errors 3, o.errors 4)) =
    some (FV.fin 0, FV.fin (3/10), FV.fin (81/100), FV.fin (1467/1000),
      FV.fin (22269/10000),
      FV.fin 1, FV.fin (17/10), FV.fin (219/100), FV.fin (2533/1000),
      FV.fin (27731/10000)) := by
  norm_num [ssfitter, ssLoop, ssStep, fixNF, maxlagOf, scenLag, List.range_succ,
    mZeros, mOnes, scenYt, scenG, dotN, sumFV, flatGet, lagrowsF, lagsAdj,
    FV.add_def, FV.sub_def, FV.mul_def, FV.div_def, FV.add, FV.sub, FV.mul,
    FV.div, FV.isFin]

/-- C9: neither `ssfitter` nor `ssfitterbackcast` ever writes to the
exogenous coefficient matrix: whenever either returns, the `xtreg` field
of the result is exactly the `xtreg` argument (the "possibly-updated
exogenous coefficients" output is always unchanged). -/
theorem xtreg_unchanged (xt0 F w v : Mat) (yt g : ℕ → FV) (L : ℕ)
    (lag : ℕ → ℕ) (wex xtreg : Mat) (nexog obsall : ℕ) (junk : Mat) :
    (ssfitter xt0 F w v yt g L lag wex xtreg nexog obsall).map SSOut.xtreg =
      (ssfitter xt0 F w v yt g L lag wex xtreg nexog obsall).map
        (fun _ => xtreg) ∧
    (ssfitterbackcast xt0 F w v yt g L lag wex xtreg nexog obsall junk).map
        SSOut.xtreg =
      (ssfitterbackcast xt0 F w v yt g L lag wex xtreg nexog obsall junk).map
        (fun _ => xtreg) := by
  constructor
  · simp only [ssfitter, Option.map_map]
    rfl
  · simp only [ssfitterbackcast, Option.map_map]
    rfl

/-- C3 (the `set_size` slip): the state history returned by
`ssfitterbackcast` is the post-`set_size` indeterminate memory - the
embedding's `junk` parameter - regardless of every other input: the
refined state values computed by the 4 cycles never reach the returned
`matxt`, because `set_size(obsall, n_cols)` (line 147) shrinks the matrix
without preserving its elements. -/
theorem ssfitterbackcast_returns_junk (xt0 F w v : Mat) (yt g : ℕ → FV)
    (L : ℕ) (lag : ℕ → ℕ) (wex xtreg : Mat) (nexog obsall : ℕ) (junk : Mat) :
    (ssfitterbackcast xt0 F w v yt g L lag wex xtreg nexog obsall junk).map
        SSOut.matxt =
      (ssfitterbackcast xt0 F w v yt g L lag wex xtreg nexog obsall junk).map
        (fun _ => junk) := by
  simp only [ssfitterbackcast, Option.map_map]
  rfl

/-- Counterexample to C5: with `lag = [1]` (so `maxlag = 1`) and
`obsAllNew = 7`, the code's backward lag is
`backlags(0) = 7·1 - (maxlag - lag_0) = 7`, not the claimed
`obsAllNew·(k+1) - lag_k = 7·1 - 1 = 6`. -/
theorem backlags_formula_counterexample :
    backlags scenLag (maxlagOf 1 scenLag) 7 0 = 7 ∧
      (7 : ℕ) ≠ 7 * (0 + 1) - scenLag 0 := by
  constructor
  · norm_num [backlags, scen_maxlag, scenLag]
  · norm_num [scenLag]

/-- C5 as amended: the backward lag offsets are
`backlag_k = obsAllNew·(k+1) - (maxlag - lag_k)` (the subtrahend is the
*transformed* lag of line 91, not the raw component lag), and the
backward gather `backlags + i - obsAll` at row `i` addresses, in the
flattened `obsAllNew`-row storage, component `k` at row `i + lag_k`. -/
theorem backlags_characterization (L : ℕ) (lag : ℕ → ℕ) (obsall k i : ℕ)
    (hk : k < L) (hpos : 1 ≤ lag k)
    (hrow : i + lag k < obsall + maxlagOf L lag) :
    backlags lag (maxlagOf L lag) (obsall + maxlagOf L lag) k =
      (obsall + maxlagOf L lag) * (k + 1) -
        (maxlagOf L lag - lag k) ∧
    lagrowsB lag (maxlagOf L lag) obsall (obsall + maxlagOf L lag) i k =
      (obsall + maxlagOf L lag) * k + (i + lag k) ∧
    ∀ m : Mat, flatGet (obsall + maxlagOf L lag) m
        (lagrowsB lag (maxlagOf L lag) obsall (obsall + maxlagOf L lag) i k) =
      m (i + lag k) k := by
  have hle : lag k ≤ maxlagOf L lag := lag_le_maxlagOf lag hk
  have hrows : lagrowsB lag (maxlagOf L lag) obsall (obsall + maxlagOf L lag) i k =
      (obsall + maxlagOf L lag) * k + (i + lag k) := by
    unfold lagrowsB backlags
    rw [Nat.mul_succ]
    omega
  refine ⟨rfl, hrows, ?_⟩
  intro m
  rw [hrows]
  exact flatGet_colrow _ m k (i + lag k) hrow

/-- Witness for C5's amended statement, at `L = 1`, `lag = [1]`,
`obsall = 6`, `k = 0`, `i = 3`. -/
theorem backlags_characterization_instance :
    backlags scenLag (maxlagOf 1 scenLag) (6 + maxlagOf 1 scenLag) 0 =
      (6 + maxlagOf 1 scenLag) * (0 + 1) -
        (maxlagOf 1 scenLag - scenLag 0) ∧
    lagrowsB scenLag (maxlagOf 1 scenLag) 6 (6 + maxlagOf 1 scenLag) 3 0 =
      (6 + maxlagOf 1 scenLag) * 0 + (3 + scenLag 0) ∧
    ∀ m : Mat, flatGet (6 + maxlagOf 1 scenLag) m
        (lagrowsB scenLag (maxlagOf 1 scenLag) 6 (6 + maxlagOf 1 scenLag) 3 0) =
      m (3 + scenLag 0) 0 :=
  backlags_characterization 1 scenLag 6 0 3 (by omega) (Nat.le_refl 1)
    (by rw [scen_maxlag, scenLag]; omega)

/-! ## The non-finite substitution at the filter level -/

theorem fixNF_some_char {r c : ℕ} {m : Mat} (h0 : (m 0 0).isFin = true) :
    fixNF r c m = some (fun i j =>
      if i < r ∧ j < c ∧ (m i j).isFin = false then flatGet r m (j * r + i - 1)
      else m i j) := by
  unfold fixNF
  rw [if_neg (by simp [h0])]

theorem fixNF_none {r c : ℕ} {m : Mat} (hr : 0 < r) (hc : 0 < c)
    (h0 : (m 0 0).isFin = false) : fixNF r c m = none := by
  unfold fixNF
  rw [if_pos ⟨hr, hc, h0⟩]

theorem fixNFBack_some_char {r c : ℕ} {m : Mat}
    (hlast : (flatGet r m (r * c - 1)).isFin = true) :
    fixNFBack r c m = some (fun i j =>
      if i < r ∧ j < c ∧ (m i j).isFin = false then flatGet r m (j * r + i + 1)
      else m i j) := by
  unfold fixNFBack
  rw [if_neg (by simp [hlast])]

/-- The forward filter step never touches entry `(0,0)` (row 0 is below
`maxlag ≥ 1`), and with that entry finite the substitution's guarded read
stays in bounds, so the step returns `some` and keeps `(0,0)` finite. -/
theorem ssStep_preserves00 (F w v : Mat) (yt g : ℕ → FV) (L : ℕ)
    (lag : ℕ → ℕ) (wex xtreg : Mat) (nexog rows maxlag : ℕ) (i : ℕ)
    (s : LoopSt) (hi : 1 ≤ i) (h0 : (s.xt 0 0).isFin = true) :
    ∃ s', ssStep F w v yt g L lag wex xtreg nexog rows maxlag i s = some s' ∧
      (s'.xt 0 0).isFin = true := by
  simp only [ssStep]
  set xt1 : Mat := fun r c =>
    (if r = i ∧ c < L then
      dotN L (F c) (fun k => flatGet rows s.xt (lagrowsF lag maxlag rows i k)) +
        g c / v (i - maxlag) c *
          (yt (i - maxlag) -
            (dotN L (w (i - maxlag))
                (fun k => flatGet rows s.xt (lagrowsF lag maxlag rows i k)) +
              dotN nexog (wex (i - maxlag)) (xtreg (i - maxlag))))
    else s.xt r c) with hxt1
  have h00 : xt1 0 0 = s.xt 0 0 := by
    simp only [hxt1]
    rw [if_neg (by intro hh; omega)]
  have h00fin : (xt1 0 0).isFin = true := by rw [h00]; exact h0
  rw [fixNF_some_char h00fin]
  refine ⟨_, rfl, ?_⟩
  show (if (0 : ℕ) < rows ∧ (0 : ℕ) < L ∧ (xt1 0 0).isFin = false then
      flatGet rows xt1 (0 * rows + 0 - 1) else xt1 0 0).isFin = true
  rw [if_neg (by simp [h00fin]), h00fin]

/-- If the entry at flattened position 0 is non-finite when the
substitution runs, the read index underflows: the step returns `none`. -/
theorem ssStep_none_of_bad00 (F w v : Mat) (yt g : ℕ → FV) (L : ℕ)
    (lag : ℕ → ℕ) (wex xtreg : Mat) (nexog rows maxlag : ℕ) (i : ℕ)
    (s : LoopSt) (hi : 1 ≤ i) (h0 : (s.xt 0 0).isFin = false)
    (hr : 0 < rows) (hc : 0 < L) :
    ssStep F w v yt g L lag wex xtreg nexog rows maxlag i s = none := by
  simp only [ssStep]
  set xt1 : Mat := fun r c =>
    (if r = i ∧ c < L then
      dotN L (F c) (fun k => flatGet rows s.xt (lagrowsF lag maxlag rows i k)) +
        g c / v (i - maxlag) c *
          (yt (i - maxlag) -
            (dotN L (w (i - maxlag))
                (fun k => flatGet rows s.xt (lagrowsF lag maxlag rows i k)) +
              dotN nexog (wex (i - maxlag)) (xtreg (i - maxlag))))
    else s.xt r c) with hxt1
  have h00 : (xt1 0 0).isFin = false := by
    simp only [hxt1]
    rw [if_neg (by intro hh; omega)]
    exact h0
  rw [fixNF_none hr hc h00]

/-- The forward loop completes whenever entry `(0,0)` of the state is
finite and every processed row index is at least 1. -/
theorem ssLoop_some_of_fin00 (F w v : Mat) (yt g : ℕ → FV) (L : ℕ)
    (lag : ℕ → ℕ) (wex xtreg : Mat) (nexog rows maxlag : ℕ) :
    ∀ (n i : ℕ) (s : LoopSt), 1 ≤ i → (s.xt 0 0).isFin = true →
    ∃ s', ssLoop F w v yt g L lag wex xtreg nexog rows maxlag i n s = some s' ∧
      (s'.xt 0 0).isFin = true := by
  intro n
  induction n with
  | zero => intro i s _ h0; exact ⟨s, rfl, h0⟩
  | succ n ih =>
    intro i s hi h0
    obtain ⟨s1, hstep, h1⟩ :=
      ssStep_preserves00 F w v yt g L lag wex xtreg nexog rows maxlag i s hi h0
    obtain ⟨s', hloop, h'⟩ := ih (i + 1) s1 (by omega) h1
    refine ⟨s', ?_, h'⟩
    unfold ssLoop
    rw [hstep]
    exact hloop

/-- C7: during the forward pass, every non-finite entry of the state
history is replaced by the value one column-major position earlier in the
flattened array, silently - the call completes (`isSome`) whenever the
flattened origin stays finite (it does: row 0 is never rewritten); in the
backward passes of the backcasting initializer, the replacement reads the
next flattened position instead. -/
theorem nonfinite_substitution_policy (xt0 F w v : Mat) (yt g : ℕ → FV)
    (L : ℕ) (lag : ℕ → ℕ) (wex xtreg : Mat) (nexog obsall : ℕ)
    (h0 : (xt0 0 0).isFin = true) (hml : 1 ≤ maxlagOf L lag) :
    (ssfitter xt0 F w v yt g L lag wex xtreg nexog obsall).isSome = true ∧
    (∀ (r c : ℕ) (m : Mat), (m 0 0).isFin = true →
      fixNF r c m = some (fun i j =>
        if i < r ∧ j < c ∧ (m i j).isFin = false then
          flatGet r m (j * r + i - 1)
        else m i j)) ∧
    (∀ (r c : ℕ) (m : Mat), (flatGet r m (r * c - 1)).isFin = true →
      fixNFBack r c m = some (fun i j =>
        if i < r ∧ j < c ∧ (m i j).isFin = false then
          flatGet r m (j * r + i + 1)
        else m i j)) := by
  refine ⟨?_, fun r c m h => fixNF_some_char h, fun r c m h => fixNFBack_some_char h⟩
  obtain ⟨s', hloop, _⟩ :=
    ssLoop_some_of_fin00 F w v yt g L lag wex xtreg nexog obsall
      (maxlagOf L lag) (obsall - maxlagOf L lag) (maxlagOf L lag)
      ⟨xt0, fun _ => FV.fin 0, fun _ => FV.fin 0⟩ hml h0
  show ((ssLoop F w v yt g L lag wex xtreg nexog obsall (maxlagOf L lag)
      (maxlagOf L lag) (obsall - maxlagOf L lag)
      ⟨xt0, fun _ => FV.fin 0, fun _ => FV.fin 0⟩).map
      (fun s => SSOut.mk s.xt s.yfit s.errs xtreg)).isSome = true
  rw [hloop]
  rfl

/-- Witness for C7 at the concrete scenario. -/
theorem nonfinite_substitution_policy_instance :
    (ssfitter mZeros mOnes mOnes mOnes scenYt scenG 1 scenLag mZeros mZeros
        0 6).isSome = true ∧
    (∀ (r c : ℕ) (m : Mat), (m 0 0).isFin = true →
      fixNF r c m = some (fun i j =>
        if i < r ∧ j < c ∧ (m i j).isFin = false then
          flatGet r m (j * r + i - 1)
        else m i j)) ∧
    (∀ (r c : ℕ) (m : Mat), (flatGet r m (r * c - 1)).isFin = true →
      fixNFBack r c m = some (fun i j =>
        if i < r ∧ j < c ∧ (m i j).isFin = false then
          flatGet r m (j * r + i + 1)
        else m i j)) :=
  nonfinite_substitution_policy mZeros mOnes mOnes mOnes scenYt scenG 1
    scenLag mZeros mZeros 0 6 rfl (by rw [scen_maxlag])

/-- C10: the substitution scans the whole state-history matrix at every
iteration, reading one flattened position before each non-finite entry;
with the entry at flattened index 0 finite the guarded read never goes
out of bounds and the filter completes, while a non-finite entry at
flattened index 0 underflows the read index and the run aborts (`none`). -/
theorem substitution_read_bounds (xt0 F w v : Mat) (yt g : ℕ → FV)
    (L : ℕ) (lag : ℕ → ℕ) (wex xtreg : Mat) (nexog obsall : ℕ) :
    ((xt0 0 0).isFin = true → 1 ≤ maxlagOf L lag →
      (ssfitter xt0 F w v yt g L lag wex xtreg nexog obsall).isSome = true) ∧
    (∀ (r c : ℕ) (m : Mat), 0 < r → 0 < c → (m 0 0).isFin = false →
      fixNF r c m = none) ∧
    ((xt0 0 0).isFin = false → 1 ≤ maxlagOf L lag →
      maxlagOf L lag < obsall → 1 ≤ L →
      ssfitter xt0 F w v yt g L lag wex xtreg nexog obsall = none) := by
  refine ⟨?_, fun r c m hr hc h0 => fixNF_none hr hc h0, ?_⟩
  · intro h0 hml
    obtain ⟨s', hloop, _⟩ :=
      ssLoop_some_of_fin00 F w v yt g L lag wex xtreg nexog obsall
        (maxlagOf L lag) (obsall - maxlagOf L lag) (maxlagOf L lag)
        ⟨xt0, fun _ => FV.fin 0, fun _ => FV.fin 0⟩ hml h0
    show ((ssLoop F w v yt g L lag wex xtreg nexog obsall (maxlagOf L lag)
        (maxlagOf L lag) (obsall - maxlagOf L lag)
        ⟨xt0, fun _ => FV.fin 0, fun _ => FV.fin 0⟩).map
        (fun s => SSOut.mk s.xt s.yfit s.errs xtreg)).isSome = true
    rw [hloop]
    rfl
  · intro h0 hml hlt hL
    have hstep := ssStep_none_of_bad00 F w v yt g L lag wex xtreg nexog obsall
      (maxlagOf L lag) (maxlagOf L lag)
      ⟨xt0, fun _ => FV.fin 0, fun _ => FV.fin 0⟩ hml h0
      (by omega) (by omega)
    have hn : obsall - maxlagOf L lag = (obsall - maxlagOf L lag - 1) + 1 := by
      omega
    show (ssLoop F w v yt g L lag wex xtreg nexog obsall (maxlagOf L lag)
        (maxlagOf L lag) (obsall - maxlagOf L lag)
        ⟨xt0, fun _ => FV.fin 0, fun _ => FV.fin 0⟩).map
        (fun s => SSOut.mk s.xt s.yfit s.errs xtreg) = none
    rw [hn]
    unfold ssLoop
    rw [hstep]
    rfl

/-- Witness for C10: applying the theorem at the concrete scenario (with
the all-non-finite initial state for the underflow half). -/
theorem substitution_read_bounds_instance :
    fixNF 1 1 (fun _ _ => FV.bad) = none ∧
    ssfitter (fun _ _ => FV.bad) mOnes mOnes mOnes scenYt scenG 1 scenLag
      mZeros mZeros 0 6 = none ∧
    (ssfitter mZeros mOnes mOnes mOnes scenYt scenG 1 scenLag mZeros mZeros
      0 6).isSome = true :=
  ⟨(substitution_read_bounds (fun _ _ => FV.bad) mOnes mOnes mOnes scenYt
      scenG 1 scenLag mZeros mZeros 0 6).2.1 1 1 (fun _ _ => FV.bad)
      Nat.one_pos Nat.one_pos rfl,
   (substitution_read_bounds (fun _ _ => FV.bad) mOnes mOnes mOnes scenYt
      scenG 1 scenLag mZeros mZeros 0 6).2.2 rfl (by rw [scen_maxlag])
      (by rw [scen_maxlag]; omega) (Nat.le_refl 1),
   (substitution_read_bounds mZeros mOnes mOnes mOnes scenYt scenG 1 scenLag
      mZeros mZeros 0 6).1 rfl (by rw [scen_maxlag])⟩

/-! ## Finiteness of the forecaster and the shape of the error matrix -/

theorem fcLoop_allFin (F w : Mat) (L : ℕ) (lag : ℕ → ℕ) (wex xtreg : Mat)
    (nexog hh maxlag : ℕ) (hF : AllFinM F) (hw : AllFinM w)
    (hwex : AllFinM wex) (hxtreg : AllFinM xtreg) :
    ∀ (n i : ℕ) (s : Mat × (ℕ → FV)), AllFinM s.1 → AllFinV s.2 →
      AllFinM (fcLoop F w L lag wex xtreg nexog hh maxlag i n s).1 ∧
      AllFinV (fcLoop F w L lag wex xtreg nexog hh maxlag i n s).2 := by
  intro n
  induction n with
  | zero => intro i s h1 h2; exact ⟨h1, h2⟩
  | succ n ih =>
    intro i s h1 h2
    have hxt1 : AllFinM (fcStep F w L lag wex xtreg nexog hh maxlag i s).1 := by
      intro r c
      simp only [fcStep]
      by_cases hrc : r = i ∧ c < L
      · rw [if_pos hrc]
        exact isFin_dotN (fun k _ => hF c k) (fun k _ => h1 _ _)
      · rw [if_neg hrc]; exact h1 r c
    have hyf1 : AllFinV (fcStep F w L lag wex xtreg nexog hh maxlag i s).2 := by
      intro t'
      show ((fcStep F w L lag wex xtreg nexog hh maxlag i s).2 t').isFin = true
      simp only [fcStep]
      by_cases ht' : t' = i - maxlag
      · rw [if_pos ht']
        refine FV.isFin_add (isFin_dotN (fun k _ => hw _ k) ?_)
          (isFin_dotN (fun k _ => hwex _ k) (fun k _ => hxtreg _ k))
        intro k _
        exact hxt1 _ _
      · rw [if_neg ht']; exact h2 t'
    exact ih (i + 1) _ hxt1 hyf1

/-- With finite inputs every point forecast is finite (the forecaster
contains no division and no substitution). -/
theorem ssforecaster_allFin (xt F w : Mat) (hor : ℕ) (L : ℕ)
    (lag : ℕ → ℕ) (wex xtreg : Mat) (nexog : ℕ) (hxt : AllFinM xt)
    (hF : AllFinM F) (hw : AllFinM w) (hwex : AllFinM wex)
    (hxtreg : AllFinM xtreg) :
    AllFinV (ssforecaster xt F w hor L lag wex xtreg nexog) := by
  intro j
  unfold ssforecaster
  have h := (fcLoop_allFin F w L lag wex xtreg nexog (hor + maxlagOf L lag)
      (maxlagOf L lag) hF hw hwex hxtreg hor (maxlagOf L lag)
      ((fun r c => if r < maxlagOf L lag then xt r c else FV.fin 0),
        fun _ => FV.fin 0)
      (fun r c => by by_cases h : r < maxlagOf L lag
                     · simp only [if_pos h]; exact hxt r c
                     · simp only [if_neg h]; rfl)
      (fun _ => rfl)).2
  exact h j

theorem sserrorer_valid_fin (xt F w : Mat) (yt : ℕ → FV) (hor : ℕ)
    (L : ℕ) (lag : ℕ → ℕ) (wex xtreg : Mat) (nexog obs : ℕ)
    (hxt : AllFinM xt) (hF : AllFinM F) (hw : AllFinM w)
    (hwex : AllFinM wex) (hxtreg : AllFinM xtreg) (hyt : AllFinV yt)
    {t j : ℕ} (ht : t < obs) (hj : j < min hor (obs - t)) :
    ((sserrorer xt F w yt hor L lag wex xtreg nexog obs) t j).isFin = true := by
  unfold sserrorer
  rw [if_pos ⟨ht, hj⟩]
  exact FV.isFin_sub (hyt (t + j))
    (ssforecaster_allFin (fun r c => xt (t + r) c) F (fun r c => w (t + r) c)
      (min hor (obs - t)) L lag (fun r c => wex (t + r) c)
      (fun r c => xtreg (t + r) c) nexog
      (fun r c => hxt (t + r) c) hF (fun r c => hw (t + r) c)
      (fun r c => hwex (t + r) c) (fun r c => hxtreg (t + r) c) j)

/-- C6: the rolling-origin error evaluator returns an `obs × hor` matrix
initialised with the missing sentinel; for origin `i ∈ [maxlag,
obs+maxlag)` (equivalently row `t = i - maxlag < obs`), with
`hh = min(hor, obs + maxlag - i) = min hor (obs - t)`, row `t` holds
observed-minus-forecast errors in columns `0 .. hh-1` and the sentinel
everywhere else; with `1 ≤ hor ≤ obs` and finite inputs, exactly
`obs - hor + 1` rows are fully populated (no sentinel) and exactly
`hor - 1` rows are partially populated. -/
theorem sserrorer_shape (xt F w : Mat) (yt : ℕ → FV) (hor : ℕ) (L : ℕ)
    (lag : ℕ → ℕ) (wex xtreg : Mat) (nexog obs : ℕ)
    (hxt : AllFinM xt) (hF : AllFinM F) (hw : AllFinM w)
    (hwex : AllFinM wex) (hxtreg : AllFinM xtreg) (hyt : AllFinV yt)
    (hhor1 : 1 ≤ hor) (hhoro : hor ≤ obs) :
    (∀ t j, t < obs → j < min hor (obs - t) →
      (sserrorer xt F w yt hor L lag wex xtreg nexog obs) t j =
        yt (t + j) -
          ssforecaster (fun r c => xt (t + r) c) F (fun r c => w (t + r) c)
            (min hor (obs - t)) L lag (fun r c => wex (t + r) c)
            (fun r c => xtreg (t + r) c) nexog j) ∧
    (∀ t j, ¬(t < obs ∧ j < min hor (obs - t)) →
      (sserrorer xt F w yt hor L lag wex xtreg nexog obs) t j = FV.bad) ∧
    (∀ t < obs, ∀ j < hor,
      (((sserrorer xt F w yt hor L lag wex xtreg nexog obs) t j).isFin = true ↔
        j < min hor (obs - t))) ∧
    Set.ncard {t | t < obs ∧ ∀ j < hor,
        ((sserrorer xt F w yt hor L lag wex xtreg nexog obs) t j).isFin = true} =
      obs - hor + 1 ∧
    Set.ncard {t | t < obs ∧
        (∃ j < hor,
          ((sserrorer xt F w yt hor L lag wex xtreg nexog obs) t j).isFin = false) ∧
        ∃ j < hor,
          ((sserrorer xt F w yt hor L lag wex xtreg nexog obs) t j).isFin = true} =
      hor - 1 := by
  set E := sserrorer xt F w yt hor L lag wex xtreg nexog obs with hE
  have hval : ∀ t j, t < obs → j < min hor (obs - t) →
      (E t j).isFin = true := fun t j ht hj =>
    sserrorer_valid_fin xt F w yt hor L lag wex xtreg nexog obs
      hxt hF hw hwex hxtreg hyt ht hj
  have hbad : ∀ t j, ¬(t < obs ∧ j < min hor (obs - t)) → E t j = FV.bad := by
    intro t j h
    rw [hE]
    unfold sserrorer
    rw [if_neg h]
  have hiff : ∀ t < obs, ∀ j < hor,
      ((E t j).isFin = true ↔ j < min hor (obs - t)) := by
    intro t ht j hj
    constructor
    · intro hfin
      by_contra hnot
      rw [hbad t j (fun hh => hnot hh.2)] at hfin
      exact absurd hfin (by simp [FV.isFin])
    · exact hval t j ht
  have hfull : ∀ t < obs, ((∀ j < hor, (E t j).isFin = true) ↔ hor + t ≤ obs) := by
    intro t ht
    constructor
    · intro hall
      have h1 := (hiff t ht (hor - 1) (by omega)).1 (hall (hor - 1) (by omega))
      omega
    · intro hto j hj
      exact hval t j ht (by omega)
  refine ⟨?_, hbad, hiff, ?_, ?_⟩
  · intro t j ht hj
    rw [hE]
    unfold sserrorer
    rw [if_pos ⟨ht, hj⟩]
  · have hset : {t | t < obs ∧ ∀ j < hor, (E t j).isFin = true} =
        (↑(Finset.range (obs - hor + 1)) : Set ℕ) := by
      ext t
      simp only [Set.mem_setOf_eq, Finset.coe_range, Set.mem_Iio]
      constructor
      · rintro ⟨ht, hall⟩
        have := (hfull t ht).1 hall
        omega
      · intro ht
        have ht' : t < obs := by omega
        exact ⟨ht', (hfull t ht').2 (by omega)⟩
    rw [hset, Set.ncard_coe_Finset, Finset.card_range]
  · have hset : {t | t < obs ∧
        (∃ j < hor, (E t j).isFin = false) ∧
          ∃ j < hor, (E t j).isFin = true} =
        (↑(Finset.Ico (obs - hor + 1) obs) : Set ℕ) := by
      ext t
      simp only [Set.mem_setOf_eq, Finset.coe_Ico, Set.mem_Ico]
      constructor
      · rintro ⟨ht, ⟨j, hj, hjbad⟩, -⟩
        refine ⟨?_, ht⟩
        by_contra hto
        have := hval t j ht (by omega)
        rw [this] at hjbad
        exact absurd hjbad (by simp)
      · rintro ⟨hlow, ht⟩
        refine ⟨ht, ⟨hor - 1, by omega, ?_⟩, 0, by omega, ?_⟩
        · have hb : E t (hor - 1) = FV.bad := hbad t (hor - 1) (by omega)
          rw [hb]
          rfl
        · exact hval t 0 ht (by omega)
    rw [hset, Set.ncard_coe_Finset, Nat.card_Ico]
    omega

/-- Witness for C6 at the concrete scenario (`hor = 1`, `obs = 5`,
state history = the zero matrix). -/
theorem sserrorer_shape_instance :
    (∀ t j, t < 5 → j < min 1 (5 - t) →
      (sserrorer mZeros mOnes mOnes scenYt 1 1 scenLag mZeros mZeros 0 5) t j =
        scenYt (t + j) -
          ssforecaster (fun r c => mZeros (t + r) c) mOnes
            (fun r c => mOnes (t + r) c) (min 1 (5 - t)) 1 scenLag
            (fun r c => mZeros (t + r) c) (fun r c => mZeros (t + r) c) 0 j) ∧
    (∀ t j, ¬(t < 5 ∧ j < min 1 (5 - t)) →
      (sserrorer mZeros mOnes mOnes scenYt 1 1 scenLag mZeros mZeros 0 5) t j =
        FV.bad) ∧
    (∀ t < 5, ∀ j < 1,
      (((sserrorer mZeros mOnes mOnes scenYt 1 1 scenLag mZeros mZeros 0 5)
          t j).isFin = true ↔ j < min 1 (5 - t))) ∧
    Set.ncard {t | t < 5 ∧ ∀ j < 1,
        ((sserrorer mZeros mOnes mOnes scenYt 1 1 scenLag mZeros mZeros 0 5)
          t j).isFin = true} = 5 - 1 + 1 ∧
    Set.ncard {t | t < 5 ∧
        (∃ j < 1,
          ((sserrorer mZeros mOnes mOnes scenYt 1 1 scenLag mZeros mZeros 0 5)
            t j).isFin = false) ∧
        ∃ j < 1,
          ((sserrorer mZeros mOnes mOnes scenYt 1 1 scenLag mZeros mZeros 0 5)
            t j).isFin = true} = 1 - 1 :=
  sserrorer_shape mZeros mOnes mOnes scenYt 1 1 scenLag mZeros mZeros 0 5
    (fun _ _ => rfl) (fun _ _ => rfl) (fun _ _ => rfl) (fun _ _ => rfl)
    (fun _ _ => rfl) (fun _ => rfl) (Nat.le_refl 1) (by omega)

/-! ## Round trip: one-step rolling errors vs filter residuals -/

/-- The single-step forecast: with `hor = 1` the forecaster reduces to the
one gather-and-measure step, reading the supplied history at rows
`maxlag - lag k`. -/
theorem ssforecaster_one_step (xt F w : Mat) (L : ℕ) (lag : ℕ → ℕ)
    (wex xtreg : Mat) (nexog : ℕ) (hlag1 : LagsPos L lag)
    (hml : 1 ≤ maxlagOf L lag) :
    ssforecaster xt F w 1 L lag wex xtreg nexog 0 =
      dotN L (w 0) (fun k => xt (maxlagOf L lag - lag k) k) +
        dotN nexog (wex 0) (xtreg 0) := by
  unfold ssforecaster
  show (fcLoop F w L lag wex xtreg nexog (1 + maxlagOf L lag)
      (maxlagOf L lag) (maxlagOf L lag) 1
      ((fun r c => if r < maxlagOf L lag then xt r c else FV.fin 0),
        fun _ => FV.fin 0)).2 0 = _
  unfold fcLoop fcLoop
  simp only [fcStep, Nat.sub_self]
  rw [if_pos trivial]
  congr 1
  · apply dotN_congr
    intro k hk
    have hk1 : 1 ≤ lag k := hlag1 k hk
    have hk2 : lag k ≤ maxlagOf L lag := lag_le_maxlagOf lag hk
    rw [flatGet_lagrowsF _ lag (maxlagOf L lag) (1 + maxlagOf L lag)
      (maxlagOf L lag) k hk2 (Nat.le_refl _) (by omega)]
    rw [if_neg (by intro hh; omega)]
    rw [if_pos (by omega)]

/-- C8: running the rolling-origin error evaluator with `horizon = 1` on
the state history produced by the recursive filter, with the same
transition, measurement, observed series, lags and exogenous inputs,
reproduces the filter's own residual vector exactly. -/
theorem sserrorer_h1_matches_residuals (xt0 F w v : Mat) (yt g : ℕ → FV)
    (L : ℕ) (lag : ℕ → ℕ) (wex xtreg : Mat) (nexog obs : ℕ)
    (hin : FinInputs F w v yt g wex xtreg) (hlag1 : LagsPos L lag)
    (hAll : AllFinM xt0) (hL : 1 ≤ L) :
    ∃ out, ssfitter xt0 F w v yt g L lag wex xtreg nexog
        (obs + maxlagOf L lag) = some out ∧
      ∀ t < obs,
        sserrorer out.matxt F w yt 1 L lag wex xtreg nexog obs t 0 =
          out.errors t := by
  have hml : 1 ≤ maxlagOf L lag :=
    Nat.le_trans (hlag1 0 hL) (lag_le_maxlagOf lag hL)
  obtain ⟨out, hout, hfinxt, hxtregeq, hpre, hrec⟩ :=
    ssfitter_spec xt0 F w v yt g L lag wex xtreg nexog
      (obs + maxlagOf L lag) hin hlag1 hAll (by omega)
  refine ⟨out, hout, ?_⟩
  intro t ht
  have hmin : min 1 (obs - t) = 1 := by omega
  unfold sserrorer
  rw [if_pos ⟨ht, by omega⟩, hmin]
  rw [ssforecaster_one_step _ F _ L lag _ _ nexog hlag1 hml]
  obtain ⟨hyfit, herrs, -⟩ := hrec (t + maxlagOf L lag) (by omega) (by omega)
  have hidx : t + maxlagOf L lag - maxlagOf L lag = t := by omega
  rw [hidx] at hyfit herrs
  rw [herrs, hyfit]
  congr 1
  congr 1
  apply dotN_congr
  intro k hk
  have hk2 : lag k ≤ maxlagOf L lag := lag_le_maxlagOf lag hk
  have : t + (maxlagOf L lag - lag k) = t + maxlagOf L lag - lag k := by omega
  rw [this]

/-- Witness for C8 at the concrete scenario. -/
theorem sserrorer_h1_matches_residuals_instance :
    ∃ out, ssfitter mZeros mOnes mOnes mOnes scenYt scenG 1 scenLag
        mZeros mZeros 0 (5 + maxlagOf 1 scenLag) = some out ∧
      ∀ t < 5,
        sserrorer out.matxt mOnes mOnes scenYt 1 1 scenLag mZeros mZeros
            0 5 t 0 = out.errors t :=
  sserrorer_h1_matches_residuals mZeros mOnes mOnes mOnes scenYt scenG 1
    scenLag mZeros mZeros 0 5 scen_FinInputs scen_LagsPos (fun _ _ => rfl)
    (Nat.le_refl 1)

/-! ## The `TLV` / `TV` cost branches -/

theorem foldl_add_range (f : ℕ → ℝ) :
    ∀ (n : ℕ) (a : ℝ), (List.range n).foldl (fun b i => b + f i) a =
      a + Finset.sum (Finset.range n) f := by
  intro n
  induction n with
  | zero => intro a; simp
  | succ n ih =>
    intro a
    rw [List.range_succ, List.foldl_append, ih a, Finset.sum_range_succ]
    simp only [List.foldl_cons, List.foldl_nil]
    ring

/-- C4 as amended: with finite well-formed inputs, `1 ≤ horizon ≤ obs`
and the canonical `obsall = obs + maxlag` state history, the `TLV` cost
is the sum over horizons `h = 1 .. horizon` of the log of the mean of the
squared rolling-origin errors of column `h`, the mean taken over the
first `obs - h + 1` rows of the column (all its populated rows) - and the
`TV` cost is the same sum without the log.  (The claim's `obs - h` row
count is off by one.) -/
theorem ssoptimizer_tlv_tv_trim (xt0 F w v : Mat) (yt g : ℕ → FV)
    (hor : ℕ) (L : ℕ) (lag : ℕ → ℕ) (normalize : ℚ) (wex xtreg : Mat)
    (nexog obs : ℕ) (junk : Mat)
    (hin : FinInputs F w v yt g wex xtreg) (hlag1 : LagsPos L lag)
    (hAll : AllFinM xt0) (hhor1 : 1 ≤ hor) (hhoro : hor ≤ obs) :
    ∃ out, ssfitter xt0 F w v yt g L lag wex xtreg nexog
        (obs + maxlagOf L lag) = some out ∧
      (∀ h, 1 ≤ h → h ≤ hor →
        ((meanSqCol (sserrorer out.matxt F w yt hor L lag wex xtreg nexog obs)
          (obs - h + 1) (h - 1)).isFin = true)) ∧
      ssoptimizer xt0 F w v yt g hor L lag "TLV" normalize false wex xtreg
          nexog (obs + maxlagOf L lag) obs junk =
        some (Finset.sum (Finset.Icc 1 hor) (fun h => Real.log
          ((meanSqCol (sserrorer out.matxt F w yt hor L lag wex xtreg nexog obs)
            (obs - h + 1) (h - 1)).toR))) ∧
      ssoptimizer xt0 F w v yt g hor L lag "TV" normalize false wex xtreg
          nexog (obs + maxlagOf L lag) obs junk =
        some (Finset.sum (Finset.Icc 1 hor) (fun h =>
          ((meanSqCol (sserrorer out.matxt F w yt hor L lag wex xtreg nexog obs)
            (obs - h + 1) (h - 1)).toR))) := by
  obtain ⟨hF, hw, hv, hyt, hg, hwex, hxtreg⟩ := hin
  obtain ⟨out, hout, hfinxt, hxtregeq, hpre, hrec⟩ :=
    ssfitter_spec xt0 F w v yt g L lag wex xtreg nexog
      (obs + maxlagOf L lag) ⟨hF, hw, hv, hyt, hg, hwex, hxtreg⟩ hlag1 hAll
      (by omega)
  set E := sserrorer out.matxt F w yt hor L lag wex xtreg nexog obs with hE
  have hfinE : ∀ t j, t < obs → j < min hor (obs - t) →
      (E t j).isFin = true := fun t j ht hj =>
    sserrorer_valid_fin out.matxt F w yt hor L lag wex xtreg nexog obs
      hfinxt hF hw hwex hxtreg hyt ht hj
  have hms : ∀ i < hor, (meanSqCol E (obs - i) i).isFin = true := by
    intro i hi
    unfold meanSqCol
    apply FV.isFin_div
    · apply isFin_sumFV
      intro t ht
      have hfin := hfinE t i (by omega) (by omega)
      exact FV.isFin_mul hfin hfin
    · rfl
    · intro hh
      rw [FV.fin.injEq] at hh
      have : ((obs - i : ℕ) : ℚ) ≠ 0 := Nat.cast_ne_zero.mpr (by omega)
      exact this hh
  have hsum : ∀ G : ℕ → ℕ → ℝ,
      Finset.sum (Finset.Icc 1 hor) (fun h => G (obs - h + 1) (h - 1)) =
        Finset.sum (Finset.range hor) (fun i => G (obs - i) i) := by
    intro G
    rw [← Nat.Ico_succ_right, Finset.sum_Ico_eq_sum_range]
    apply Finset.sum_congr (by rw [Nat.succ_sub_one])
    intro i hi
    have hi' : i < hor := by simpa using hi
    have e1 : obs - (1 + i) + 1 = obs - i := by omega
    have e2 : 1 + i - 1 = i := by omega
    rw [e1, e2]
  have hfit : (if false then
      ssfitterbackcast xt0 F w v yt g L lag wex xtreg nexog
        (obs + maxlagOf L lag) junk
    else ssfitter xt0 F w v yt g L lag wex xtreg nexog
        (obs + maxlagOf L lag)) = some out := by
    rw [if_neg (by simp)]
    exact hout
  refine ⟨out, hout, fun h h1 h2 => ?_, ?_, ?_⟩
  · have := hms (h - 1) (by omega)
    have e1 : obs - (h - 1) = obs - h + 1 := by omega
    rw [e1] at this
    exact this
  · show (match (if false then
        ssfitterbackcast xt0 F w v yt g L lag wex xtreg nexog
          (obs + maxlagOf L lag) junk
      else ssfitter xt0 F w v yt g L lag wex xtreg nexog
          (obs + maxlagOf L lag)) with
      | none => none
      | some out' => ssCost F w yt hor L lag "TLV" wex out'.xtreg nexog obs out')
      = _
    rw [hfit]
    show ssCost F w yt hor L lag "TLV" wex out.xtreg nexog obs out = _
    simp only [ssCost]
    rw [if_neg (by decide), if_pos trivial]
    rw [hxtregeq, foldl_add_range, zero_add]
    rw [hsum fun n j => Real.log ((meanSqCol E n j).toR), hE]
  · show (match (if false then
        ssfitterbackcast xt0 F w v yt g L lag wex xtreg nexog
          (obs + maxlagOf L lag) junk
      else ssfitter xt0 F w v yt g L lag wex xtreg nexog
          (obs + maxlagOf L lag)) with
      | none => none
      | some out' => ssCost F w yt hor L lag "TV" wex out'.xtreg nexog obs out')
      = _
    rw [hfit]
    show ssCost F w yt hor L lag "TV" wex out.xtreg nexog obs out = _
    simp only [ssCost]
    rw [if_neg (by decide), if_neg (by decide), if_pos trivial]
    rw [hxtregeq, foldl_add_range, zero_add]
    rw [hsum fun n j => (meanSqCol E n j).toR, hE]

/-- Witness for C4's amended statement at the concrete scenario
(`horizon = 1`, `obs = 5`). -/
theorem ssoptimizer_tlv_tv_trim_instance :
    ∃ out, ssfitter mZeros mOnes mOnes mOnes scenYt scenG 1 scenLag
        mZeros mZeros 0 (5 + maxlagOf 1 scenLag) = some out ∧
      (∀ h, 1 ≤ h → h ≤ 1 →
        ((meanSqCol (sserrorer out.matxt mOnes mOnes scenYt 1 1 scenLag
          mZeros mZeros 0 5) (5 - h + 1) (h - 1)).isFin = true)) ∧
      ssoptimizer mZeros mOnes mOnes mOnes scenYt scenG 1 1 scenLag "TLV" 1
          false mZeros mZeros 0 (5 + maxlagOf 1 scenLag) 5 mZeros =
        some (Finset.sum (Finset.Icc 1 1) (fun h => Real.log
          ((meanSqCol (sserrorer out.matxt mOnes mOnes scenYt 1 1 scenLag
            mZeros mZeros 0 5) (5 - h + 1) (h - 1)).toR))) ∧
      ssoptimizer mZeros mOnes mOnes mOnes scenYt scenG 1 1 scenLag "TV" 1
          false mZeros mZeros 0 (5 + maxlagOf 1 scenLag) 5 mZeros =
        some (Finset.sum (Finset.Icc 1 1) (fun h =>
          ((meanSqCol (sserrorer out.matxt mOnes mOnes scenYt 1 1 scenLag
            mZeros mZeros 0 5) (5 - h + 1) (h - 1)).toR))) :=
  ssoptimizer_tlv_tv_trim mZeros mOnes mOnes mOnes scenYt scenG 1 1 scenLag
    1 mZeros mZeros 0 5 mZeros scen_FinInputs scen_LagsPos (fun _ _ => rfl)
    (Nat.le_refl 1) (by omega)

/-- Zero persistence vector for the counterexample run (the state then
stays at its zero initial value and the one-step errors are the raw
observations). -/
def cexG : ℕ → FV := fun _ => FV.fin 0

theorem cex_FinInputs : FinInputs mOnes mOnes mOnes scenYt cexG mZeros mZeros := by
  refine ⟨fun _ _ => rfl, fun _ _ => rfl, fun _ _ => ⟨rfl, ?_⟩,
    fun _ => rfl, fun _ => rfl, fun _ _ => rfl, fun _ _ => rfl⟩
  intro h
  rw [mOnes, FV.fin.injEq] at h
  norm_num at h

/-- Counterexample to C4: with `obs = 2`, `horizon = 1`, zero persistence
and observed series `[1, 2]`, the code's `TV` cost averages the squared
one-step errors over the first `obs - h + 1 = 2` rows of the column
(value `(1² + 2²)/2 = 5/2`), whereas the claim's `obs - h = 1`-row
trimming would give `1²/1 = 1`. -/
theorem ssoptimizer_tv_trim_counterexample :
    ssoptimizer mZeros mOnes mOnes mOnes scenYt cexG 1 1 scenLag "TV" 1
        false mZeros mZeros 0 3 2 mZeros ≠
      (ssfitter mZeros mOnes mOnes mOnes scenYt cexG 1 scenLag mZeros mZeros
          0 3).map (fun out => Finset.sum (Finset.Icc 1 1) (fun h =>
        (meanSqCol (sserrorer out.matxt mOnes mOnes scenYt 1 1 scenLag
          mZeros mZeros 0 2) (2 - h) (h - 1)).toR)) := by
  obtain ⟨out, hout, hfinxt, hxtregeq, hpre, hrec⟩ :=
    ssfitter_spec mZeros mOnes mOnes mOnes scenYt cexG 1 scenLag mZeros
      mZeros 0 3 cex_FinInputs scen_LagsPos (fun _ _ => rfl)
      (by rw [scen_maxlag]; omega)
  have h00 : out.matxt 0 0 = FV.fin 0 := by
    rw [hpre 0 0 (by rw [scen_maxlag]; omega)]
    rfl
  obtain ⟨hy0, he0, hxr⟩ := hrec 1 (by rw [scen_maxlag]) (by omega)
  simp only [scen_maxlag, scenLag, Nat.sub_self] at hy0 he0 hxr
  have hyfit0 : out.yfit 0 = FV.fin 0 := by
    rw [hy0, dotN, dotN, sumFV, sumFV, sumFV, h00]
    norm_num [mOnes, FV.add_def, FV.mul_def, FV.add, FV.mul]
  have herr0 : out.errors 0 = FV.fin 1 := by
    rw [he0, hyfit0]
    norm_num [scenYt, FV.sub_def, FV.sub]
  have hx1 : out.matxt 1 0 = FV.fin 0 := by
    rw [hxr 0 (by omega), dotN, sumFV, sumFV, h00, herr0]
    norm_num [mOnes, cexG, FV.add_def, FV.mul_def, FV.div_def,
      FV.add, FV.mul, FV.div]
  have hE0 : sserrorer out.matxt mOnes mOnes scenYt 1 1 scenLag mZeros
      mZeros 0 2 0 0 = FV.fin 1 := by
    unfold sserrorer
    rw [if_pos (by norm_num)]
    rw [show min 1 (2 - 0) = 1 by norm_num]
    rw [ssforecaster_one_step _ _ _ 1 scenLag _ _ 0 scen_LagsPos
      (by rw [scen_maxlag])]
    simp only [scen_maxlag, scenLag, Nat.sub_self, Nat.add_zero, Nat.zero_add]
    rw [dotN, dotN, sumFV, sumFV, sumFV, h00]
    norm_num [mOnes, scenYt, FV.add_def, FV.mul_def, FV.sub_def,
      FV.add, FV.mul, FV.sub]
  have hE1 : sserrorer out.matxt mOnes mOnes scenYt 1 1 scenLag mZeros
      mZeros 0 2 1 0 = FV.fin 2 := by
    unfold sserrorer
    rw [if_pos (by norm_num)]
    rw [show min 1 (2 - 1) = 1 by norm_num]
    rw [ssforecaster_one_step _ _ _ 1 scenLag _ _ 0 scen_LagsPos
      (by rw [scen_maxlag])]
    simp only [scen_maxlag, scenLag, Nat.sub_self, Nat.add_zero, Nat.zero_add]
    rw [dotN, dotN, sumFV, sumFV, sumFV, hx1]
    norm_num [mOnes, scenYt, FV.add_def, FV.mul_def, FV.sub_def,
      FV.add, FV.mul, FV.sub]
  have hA : meanSqCol (sserrorer out.matxt mOnes mOnes scenYt 1 1 scenLag
      mZeros mZeros 0 2) (2 - 0) 0 = FV.fin (5 / 2) := by
    rw [show (2 - 0 : ℕ) = 2 from rfl]
    rw [meanSqCol, sumFV, sumFV, sumFV, hE0, hE1]
    norm_num [FV.add_def, FV.mul_def, FV.div_def, FV.add, FV.mul, FV.div]
  have hB : meanSqCol (sserrorer out.matxt mOnes mOnes scenYt 1 1 scenLag
      mZeros mZeros 0 2) 1 0 = FV.fin 1 := by
    rw [meanSqCol, sumFV, sumFV, hE0]
    norm_num [FV.add_def, FV.mul_def, FV.div_def, FV.add, FV.mul, FV.div]
  have hlhs : ssoptimizer mZeros mOnes mOnes mOnes scenYt cexG 1 1 scenLag
      "TV" 1 false mZeros mZeros 0 3 2 mZeros =
      some (0 + ((5 / 2 : ℚ) : ℝ)) := by
    show (match (if false then
        ssfitterbackcast mZeros mOnes mOnes mOnes scenYt cexG 1 scenLag
          mZeros mZeros 0 3 mZeros
      else ssfitter mZeros mOnes mOnes mOnes scenYt cexG 1 scenLag mZeros
          mZeros 0 3) with
      | none => none
      | some out' =>
        ssCost mOnes mOnes scenYt 1 1 scenLag "TV" mZeros out'.xtreg 0 2 out')
      = _
    rw [if_neg (by simp), hout]
    show ssCost mOnes mOnes scenYt 1 1 scenLag "TV" mZeros out.xtreg 0 2 out
      = _
    simp only [ssCost]
    rw [if_neg (by decide), if_neg (by decide), if_pos trivial]
    rw [hxtregeq]
    show some (List.foldl _ 0 [0]) = _
    simp only [List.foldl_cons, List.foldl_nil]
    rw [hA]
    rfl
  have hrhs : (ssfitter mZeros mOnes mOnes mOnes scenYt cexG 1 scenLag
      mZeros mZeros 0 3).map (fun o => Finset.sum (Finset.Icc 1 1) (fun h =>
      (meanSqCol (sserrorer o.matxt mOnes mOnes scenYt 1 1 scenLag
        mZeros mZeros 0 2) (2 - h) (h - 1)).toR)) = some ((1 : ℚ) : ℝ) := by
    rw [hout]
    simp only [Option.map_some', Finset.Icc_self, Finset.sum_singleton]
    norm_num
    rw [hB]
    norm_num [FV.toR]
  rw [hlhs, hrhs]
  intro heq
  rw [Option.some.injEq] at heq
  rw [zero_add] at heq
  have : (5 / 2 : ℚ) = 1 := by exact_mod_cast heq
  norm_num at this

end SSpace
